import Mathlib

/-!
Verification development for the paired-fragment coverage engine of the
alfred repository (src/tracks.h and src/count_dna.h).

The definitions below are a shallow embedding of the C++ source:

* the pair resolver shared by create_tracks (tracks.h:156-191) and
  bam_dna_counter (count_dna.h:179-210): per-record flag and quality
  filtering, the per-position name store, and the pending-quality table;
* the per-base CIGAR coverage accumulation of create_tracks
  (tracks.h:216-233) and the midpoint-counting variant of bam_dna_counter
  (count_dna.h:206-208);
* the run-length encoding and the greedy segment-merge loop of
  create_tracks (tracks.h:240-300);
* the per-interval coverage summation of bam_dna_counter
  (count_dna.h:222-227) and the artificial window generator
  createIntervals (count_dna.h:104-124).

Machine integers are modelled as Nat/Int (BAM positions are int32 and
non-negative for mapped records; counters are uint16 with the saturation
checks written out explicitly in the source).  The C++ doubles used for
segment scores and merge costs are modelled as rationals.  Out-of-bounds
vector accesses, which are undefined behaviour in the C++, are modelled by
returning none.
-/

/-- CIGAR operation kinds, mirroring the BAM_C* constants of htslib used by
the source. -/
inductive CigarOp where
  | CMATCH
  | CINS
  | CDEL
  | CREF_SKIP
  | CSOFT_CLIP
  | CHARD_CLIP
  | CPAD
  | CEQUAL
  | CDIFF
deriving DecidableEq, Repr

/-- One alignment record, with the fields of bam1_t consumed by the source:
position, mate position, reference ids, the six filtered flag bits plus the
paired bit, mapping quality, query name (already reduced to its hash, an
arbitrary natural number) and the CIGAR operation list. -/
structure BamRec where
  tid : ℤ
  mtid : ℤ
  pos : ℤ
  mpos : ℤ
  qual : ℕ
  qname : ℕ
  paired : Bool
  secondary : Bool
  qcfail : Bool
  dup : Bool
  supplementary : Bool
  unmap : Bool
  munmap : Bool
  cigar : List (CigarOp × ℕ)
deriving DecidableEq, Repr

/-- Modelled from the spec: the FragmentKey produced by hash_pair /
hash_pair_mate of util.h, which is not under src/.  The spec describes it as
a deterministic hash derived from the query name and the pair's genomic
coordinates, identical for both mates of a genuine pair; we model it as the
exact triple (name hash, first coordinate, second coordinate), i.e. hashing
without collisions. -/
structure FragKey where
  name : ℕ
  c1 : ℤ
  c2 : ℤ
deriving DecidableEq, Repr

/-- Key computed by a record classified as the first mate
(hash_pair in the source: own position first, mate position second). -/
def hashPair (r : BamRec) : FragKey := ⟨r.qname, r.pos, r.mpos⟩

/-- Key computed by a record classified as the second mate
(hash_pair_mate in the source: mate position first, own position second),
so that it matches the key the first mate stored. -/
def hashPairMate (r : BamRec) : FragKey := ⟨r.qname, r.mpos, r.pos⟩

/-- Record-level filtering shared by every pass of the source
(tracks.h:159, count_dna.h:182): drop secondary / QC-fail / duplicate /
supplementary / unmapped / mate-unmapped records, records whose mate maps to
a different reference, and unpaired records. -/
def keepRec (r : BamRec) : Bool :=
  !(r.secondary || r.qcfail || r.dup || r.supplementary || r.unmap || r.munmap)
    && r.tid == r.mtid && r.paired

/-- State of the pair resolver: the last seen alignment position, the set of
query-name hashes seen at that position (lastAlignedPosReads in the source,
modelled as a list) and the pending-quality table (the boost unordered_map
from fragment key to the first mate's quality). -/
structure RState where
  lastAlignedPos : ℤ
  lastReads : List ℕ
  qualities : FragKey → Option ℕ

/-- Initial resolver state at the start of a chromosome. -/
def initRState : RState := ⟨0, [], fun _ => none⟩

/-- Point update of the pending-quality table (operator[] of the map). -/
def setQual (m : FragKey → Option ℕ) (k : FragKey) (v : ℕ) : FragKey → Option ℕ :=
  fun k2 => if k2 = k then some v else m k2

/-- Clean-up of the per-position read store (tracks.h:163-166,
count_dna.h:186-189): when the record's position advances past the last seen
aligned position, the name store is cleared and the position recorded. -/
def cleanupState (st : RState) (r : BamRec) : RState :=
  if st.lastAlignedPos < r.pos then ⟨r.pos, [], st.qualities⟩ else st

/-- One step of the pair resolver on one record, returning the new state and
the emitted valid fragment, if any: the direct embedding of the loop body at
tracks.h:159-185 and count_dna.h:182-209.  A fragment emission carries the
combined pair quality (the minimum of the two mates' qualities) and the
second mate's record. -/
def resolveStep (minQual : ℕ) (st : RState) (r : BamRec) : RState × Option (ℕ × BamRec) :=
  if !(keepRec r) then (st, none)
  else if r.qual < minQual then (st, none)
  else
    let st1 : RState := cleanupState st r
    if r.pos < r.mpos ∨ (r.pos = r.mpos ∧ r.qname ∉ st1.lastReads) then
      (⟨st1.lastAlignedPos, r.qname :: st1.lastReads,
        setQual st1.qualities (hashPair r) r.qual⟩, none)
    else
      match st1.qualities (hashPairMate r) with
      | none => (st1, none)
      | some q =>
          let pairQuality := min q r.qual
          let st2 : RState :=
            ⟨st1.lastAlignedPos, st1.lastReads, setQual st1.qualities (hashPairMate r) 0⟩
          if pairQuality < minQual then (st2, none)
          else (st2, some (pairQuality, r))

/-- Run the resolver over a record stream from a given state, collecting the
emitted fragments in order. -/
def runResolver (minQual : ℕ) : RState → List BamRec → RState × List (ℕ × BamRec)
  | st, [] => (st, [])
  | st, r :: rs =>
      let p := resolveStep minQual st r
      let rest := runResolver minQual p.1 rs
      (rest.1, p.2.toList ++ rest.2)

/-- Fragments emitted by the resolver over one chromosome's record stream,
starting from the fresh state. -/
def resolveAll (minQual : ℕ) (recs : List BamRec) : List (ℕ × BamRec) :=
  (runResolver minQual initRState recs).2

/-- Maximum representable depth: both passes set
maxCoverage = std::numeric_limits of uint16_t (tracks.h:195, count_dna.h:172). -/
def maxCoverage : ℕ := 65535

/-- Inner loop of the match/equal/mismatch CIGAR case (tracks.h:226-229):
increment cov[rp] while it is strictly below maxCoverage, advancing the
reference pointer once per base.  The C++ indexes the vector without a
bounds check, so an index at or beyond the array length is undefined
behaviour; we model it as none. -/
def matchRun : List ℕ → ℕ → ℕ → Option (List ℕ × ℕ)
  | cov, rp, 0 => some (cov, rp)
  | cov, rp, k + 1 =>
      if h : rp < cov.length then
        matchRun
          (cov.set rp (if cov.get ⟨rp, h⟩ < maxCoverage then cov.get ⟨rp, h⟩ + 1 else cov.get ⟨rp, h⟩))
          (rp + 1) k
      else none

/-- CIGAR walk of the coverage pass (tracks.h:219-233): match, equal and
mismatch operations increment each covered base; deletions and reference
skips advance the reference pointer; every other operation leaves it
unchanged. -/
def cigarAccum : List ℕ → ℕ → List (CigarOp × ℕ) → Option (List ℕ)
  | cov, _, [] => some cov
  | cov, rp, (op, len) :: ops =>
      if op = CigarOp.CMATCH ∨ op = CigarOp.CEQUAL ∨ op = CigarOp.CDIFF then
        match matchRun cov rp len with
        | none => none
        | some p => cigarAccum p.1 p.2 ops
      else if op = CigarOp.CDEL then cigarAccum cov (rp + len) ops
      else if op = CigarOp.CREF_SKIP then cigarAccum cov (rp + len) ops
      else cigarAccum cov rp ops

/-- Coverage accumulation over a list of qualifying alignments, each given
by its start position and CIGAR list (the per-record body of
tracks.h:216-233 folded over the stream). -/
def cigarAccumList : List (ℕ × List (CigarOp × ℕ)) → List ℕ → Option (List ℕ)
  | [], cov => some cov
  | rd :: rs, cov =>
      match cigarAccum cov rd.1 rd.2 with
      | none => none
      | some cov2 => cigarAccumList rs cov2

/-- Total reference span of a CIGAR list: the operations that consume
reference bases (match, equal, mismatch, deletion, reference skip). -/
def refSpan : List (CigarOp × ℕ) → ℕ
  | [] => 0
  | (op, len) :: ops =>
      if op = CigarOp.CMATCH ∨ op = CigarOp.CEQUAL ∨ op = CigarOp.CDIFF
         ∨ op = CigarOp.CDEL ∨ op = CigarOp.CREF_SKIP then
        len + refSpan ops
      else refSpan ops

/-- Modelled from the spec: halfAlignmentLength of util.h is not under src/.
The spec describes the midpoint as the pair start plus half the total
aligned span, so we take half of the record's aligned reference span. -/
def halfAlignmentLength (r : BamRec) : ℤ := ((refSpan r.cigar / 2 : ℕ) : ℤ)

/-- Midpoint-counting variant of bam_dna_counter (count_dna.h:206-208): the
midpoint counter is incremented only when the midpoint is strictly below the
chromosome length and the counter is strictly below maxCoverage - 1. -/
def midCount (targetLen : ℕ) (cov : List ℕ) (r : BamRec) : List ℕ :=
  let midPoint : ℤ := r.pos + halfAlignmentLength r
  if midPoint < (targetLen : ℤ) then
    if cov.getD midPoint.toNat 0 < maxCoverage - 1 then
      cov.set midPoint.toNat (cov.getD midPoint.toNat 0 + 1)
    else cov
  else cov

/-- One constant-score segment of the output track (struct Track of
tracks.h:55-60); the C++ field named end is called stop here because end is
reserved in Lean. -/
structure Track where
  start : ℕ
  stop : ℕ
  score : ℚ
deriving DecidableEq, Repr

/-- Run-length encoding pass of create_tracks (tracks.h:243-255), written as
a recursion over the remaining depth values: i is the index of the head of
the remaining list, wb/we/wval are the window begin, window end and raw
window value of the source, and nf is the normalization factor applied to
every emitted score. -/
def rleAux (nf : ℚ) : List ℕ → ℕ → ℕ → ℕ → ℕ → List Track
  | [], _, wb, we, wval => [⟨wb, we + 1, nf * (wval : ℚ)⟩]
  | c :: cs, i, wb, we, wval =>
      if c = wval then rleAux nf cs (i + 1) wb (we + 1) wval
      else ⟨wb, we + 1, nf * (wval : ℚ)⟩ :: rleAux nf cs (i + 1) i i c

/-- Maximal run-length encoding of a depth array (tracks.h:243-255). -/
def rleTracks (nf : ℚ) (cov : List ℕ) : List Track :=
  match cov with
  | [] => []
  | c :: cs => rleAux nf cs 1 0 0 c

/-- Width of a segment (end - start in the source). -/
def segWidth (a : Track) : ℕ := a.stop - a.start

/-- Width-weighted merge value of two adjacent segments
(nwavg at tracks.h:269). -/
def mergeVal (a b : Track) : ℚ :=
  ((segWidth a : ℚ) * a.score + (segWidth b : ℚ) * b.score)
    / ((segWidth a : ℚ) + (segWidth b : ℚ))

/-- Merge cost of two adjacent segments: the width-weighted sum of squared
deviations from the merge value (nerr at tracks.h:270-271). -/
def mergeCost (a b : Track) : ℚ :=
  (segWidth a : ℚ) * ((a.score - mergeVal a b) * (a.score - mergeVal a b))
    + (segWidth b : ℚ) * ((b.score - mergeVal a b) * (b.score - mergeVal a b))

/-- Costs of all adjacent pairs of the current segment list
(the errs vector at tracks.h:265-273). -/
def errsOf (l : List Track) : List ℚ := List.zipWith mergeCost l l.tail

/-- Merge scan of one reduction iteration (tracks.h:278-297): walk the list
once and merge every adjacent pair whose cost is at most the threshold; a
merged segment keeps the left start, takes the right stop and the weighted
merge value as score, and is compared next against the right neighbour of
the absorbed segment. -/
def mergeScan (thres : ℚ) : Track → List Track → List Track
  | cur, [] => [cur]
  | cur, nxt :: rest =>
      if mergeCost cur nxt ≤ thres then
        mergeScan thres ⟨cur.start, nxt.stop, mergeVal cur nxt⟩ rest
      else cur :: mergeScan thres nxt rest

/-- One full merge pass over a segment list. -/
def mergePass (thres : ℚ) : List Track → List Track
  | [] => []
  | a :: rest => mergeScan thres a rest

/-- Adjacent-pair costs sorted ascending (std::sort at tracks.h:274). -/
def sortedErrs (l : List Track) : List ℚ :=
  (errsOf l).mergeSort (fun a b => a ≤ b)

/-- Cost threshold of one reduction iteration (tracks.h:275-277): the sorted
cost at rank (red - resolution) * size, truncated to an unsigned integer and
decremented when positive; red is the current ratio of segment count to the
original segment count. -/
def thresOf (res : ℚ) (origs : ℕ) (l : List Track) : ℚ :=
  let red : ℚ := (l.length : ℚ) / (origs : ℚ)
  let bp0 : ℕ := ⌊(red - res) * (l.length : ℚ)⌋₊
  let bp : ℕ := if 0 < bp0 then bp0 - 1 else bp0
  (sortedErrs l).getD bp 0

/-- Guard of the reduction loop (tracks.h:261): more than one segment left
and the current ratio still above the resolution target. -/
def loopGuard (res : ℚ) (origs : ℕ) (l : List Track) : Prop :=
  1 < l.length ∧ res < (l.length : ℚ) / (origs : ℚ)

instance loopGuardDecidable (res : ℚ) (origs : ℕ) (l : List Track) :
    Decidable (loopGuard res origs l) := by
  unfold loopGuard; infer_instance

/-- Reduction loop of create_tracks (tracks.h:258-300), with an explicit
fuel bound on the number of iterations; the termination theorem for claim
C4 shows that fuel equal to the original segment count always suffices, so
the embedding with that fuel computes the same result as the C++ while
loop. -/
def reduceLoop (res : ℚ) (origs : ℕ) : ℕ → List Track → List Track
  | 0, l => l
  | fuel + 1, l =>
      if loopGuard res origs l then
        reduceLoop res origs fuel (mergePass (thresOf res origs l) l)
      else l

/-- Segment compressor of create_tracks: run-length encode the depth array,
then reduce it only when the resolution target lies strictly between 0 and 1
(tracks.h:240-300). -/
def createTrackLine (res : ℚ) (nf : ℚ) (cov : List ℕ) : List Track :=
  let tl := rleTracks nf cov
  if 0 < res ∧ res < 1 then reduceLoop res tl.length tl.length tl else tl

/-- Expansion of a segment list back into a per-base score array: every base
in [start, stop) receives the segment's score. -/
def expandSeg (l : List Track) : List ℚ :=
  l.flatMap (fun t => List.replicate (segWidth t) t.score)

/-- Per-interval coverage summation of bam_dna_counter (count_dna.h:224-225):
sum cov[k] for k from the interval start up to (excluding) the interval end.
The C++ indexes the vector without a bounds check, so an index at or beyond
the array length is modelled as none. -/
def covSumFrom (cov : List ℕ) (e : ℕ) (k : ℕ) : Option ℕ :=
  if k < e then
    if h : k < cov.length then
      match covSumFrom cov e (k + 1) with
      | none => none
      | some s => some (cov.get ⟨k, h⟩ + s)
    else none
  else some 0
termination_by e - k

/-- One reporting interval (struct ItvChr of count_dna.h:58-62); the start
and end are non-negative by the validation in createIntervals, so they are
modelled as naturals, and the C++ field named end is called stop here. -/
structure ItvChr where
  start : ℕ
  stop : ℕ
  id : String
deriving DecidableEq, Repr

/-- Loop of the artificial window generator (count_dna.h:113-122), with fuel:
each window runs from pos to min over 32 bits of pos + wSize and targetLen,
and the cursor advances by wOffset.  The loop variables pos and window_len
are uint32, so the additions pos + wSize (count_dna.h:114) and
pos += wOffset (count_dna.h:121) wrap modulo 2^32, written out explicitly;
the wrapped uint32 values are recorded (the C++ then stores them into the
int32_t fields of ItvChr as the same 32-bit pattern).  The C++ loops forever
when pos never reaches targetLen (offset 0, or the cursor wrapping around);
exhausted fuel in that situation is modelled as none. -/
def artAux (wSize wOffset targetLen : ℕ) (chr : String) : ℕ → ℕ → Option (List ItvChr)
  | 0, pos => if pos < targetLen then none else some []
  | fuel + 1, pos =>
      if pos < targetLen then
        let windowLen := if targetLen < (pos + wSize) % 4294967296 then targetLen
                         else (pos + wSize) % 4294967296
        match artAux wSize wOffset targetLen chr fuel ((pos + wOffset) % 4294967296) with
        | none => none
        | some l =>
            some (⟨pos, windowLen,
              chr ++ ":" ++ toString pos ++ "-" ++ toString windowLen⟩ :: l)
      else some []

/-- Artificial interval generation of createIntervals (count_dna.h:104-124):
when window_num is positive the window size and offset are both
targetLen / window_num + 1, computed in unsigned 32-bit arithmetic
(count_dna.h:110, so the increment wraps modulo 2^32 and yields 0 when
targetLen / window_num = 2^32 - 1); otherwise the configured size and
offset are used.  Windows are generated from position 0; fuel targetLen
bounds the iteration count, which suffices whenever the effective offset is
positive and the cursor never wraps. -/
def createIntervalsArt (cWindowSize cWindowOffset cWindowNum : ℕ)
    (chr : String) (targetLen : ℕ) : Option (List ItvChr) :=
  let wSize := if 0 < cWindowNum then (targetLen / cWindowNum + 1) % 4294967296
               else cWindowSize
  let wOffset := if 0 < cWindowNum then (targetLen / cWindowNum + 1) % 4294967296
                 else cWindowOffset
  artAux wSize wOffset targetLen chr targetLen 0

/-- Contiguous-chain predicate for interval lists: the list starts at
position p, each interval starts where the previous one stopped, and the
last one stops at q (an empty list demands p = q). -/
def itvChain (p : ℕ) : List ItvChr → ℕ → Prop
  | [], q => p = q
  | t :: ts, q => t.start = p ∧ itvChain t.stop ts q

instance itvChainDec : ∀ (p : ℕ) (l : List ItvChr) (q : ℕ), Decidable (itvChain p l q)
  | p, [], q => decidable_of_iff (p = q) (by simp [itvChain])
  | p, t :: ts, q =>
      have : Decidable (itvChain t.stop ts q) := itvChainDec t.stop ts q
      decidable_of_iff (t.start = p ∧ itvChain t.stop ts q) (by simp [itvChain])

/-- Contiguous-chain predicate for segment lists, as for itvChain. -/
def trackChain (p : ℕ) : List Track → ℕ → Prop
  | [], q => p = q
  | t :: ts, q => t.start = p ∧ trackChain t.stop ts q

instance trackChainDec : ∀ (p : ℕ) (l : List Track) (q : ℕ), Decidable (trackChain p l q)
  | p, [], q => decidable_of_iff (p = q) (by simp [trackChain])
  | p, t :: ts, q =>
      have : Decidable (trackChain t.stop ts q) := trackChainDec t.stop ts q
      decidable_of_iff (t.start = p ∧ trackChain t.stop ts q) (by simp [trackChain])

/-- Well-formed full cover of a depth array of length n: a non-empty segment
list that starts at 0, is contiguous, stops at n, and has only non-degenerate
segments. -/
def coversArray (n : ℕ) (l : List Track) : Prop :=
  l ≠ [] ∧ trackChain 0 l n ∧ ∀ t ∈ l, t.start < t.stop

/-- Individual record filter of the resolver: the record survives the flag
filter and the minimum-mapping-quality filter. -/
def passRec (minQual : ℕ) (r : BamRec) : Prop :=
  keepRec r = true ∧ minQual ≤ r.qual

instance passRecDec (minQual : ℕ) (r : BamRec) : Decidable (passRec minQual r) := by
  unfold passRec; infer_instance

/-- Emissions of the resolver belonging to one query name. -/
def nameEmissions (w : ℕ) (ems : List (ℕ × BamRec)) : List (ℕ × BamRec) :=
  ems.filter (fun e => decide (e.2.qname = w))

/-- Emissions of the resolver belonging to one fragment key (every emission
is produced in the second-mate branch, whose key is hash_pair_mate of the
emitted record). -/
def keyEmissions (k : FragKey) (ems : List (ℕ × BamRec)) : List (ℕ × BamRec) :=
  ems.filter (fun e => decide (hashPairMate e.2 = k))

/-! ### Interval summation (claim C9) -/

theorem covSumFrom_eq_sum (cov : List ℕ) (e : ℕ) (he : e ≤ cov.length) :
    ∀ n k, e - k ≤ n → covSumFrom cov e k = some (∑ i ∈ Finset.Ico k e, cov.getD i 0) := by
  intro n
  induction n with
  | zero =>
      intro k hk
      rw [covSumFrom, if_neg (by omega), Finset.Ico_eq_empty (by simp; omega)]
      simp
  | succ n ih =>
      intro k hk
      by_cases hke : k < e
      · have hkc : k < cov.length := lt_of_lt_of_le hke he
        rw [covSumFrom, if_pos hke, dif_pos hkc, ih (k + 1) (by omega)]
        rw [Finset.sum_eq_sum_Ico_succ_bot hke]
        simp [List.getD_eq_getElem cov 0 hkc, List.getElem?_eq_getElem hkc]
      · rw [covSumFrom, if_neg hke, Finset.Ico_eq_empty (by simp; omega)]
        simp

theorem list_sum_eq_sum_getD (cov : List ℕ) :
    cov.sum = ∑ i ∈ Finset.Ico 0 cov.length, cov.getD i 0 := by
  rw [← Finset.range_eq_Ico]
  induction cov with
  | nil => simp
  | cons a t ih =>
      simp only [List.length_cons, Finset.sum_range_succ', List.sum_cons, ih]
      simp [Nat.add_comm]

theorem itvChain_sum (cov : List ℕ) :
    ∀ (itvs : List ItvChr) (p q : ℕ), itvChain p itvs q →
      (∀ t ∈ itvs, t.start ≤ t.stop) → q ≤ cov.length →
      p ≤ q ∧
        (itvs.map (fun t => (covSumFrom cov t.stop t.start).getD 0)).sum
          = ∑ i ∈ Finset.Ico p q, cov.getD i 0 := by
  intro itvs
  induction itvs with
  | nil =>
      intro p q h _ _
      simp only [itvChain] at h
      subst h
      simp
  | cons t ts ih =>
      intro p q h hw hq
      obtain ⟨hstart, hchain⟩ := h
      obtain ⟨hle, hsum⟩ := ih t.stop q hchain (fun u hu => hw u (List.mem_cons_of_mem _ hu)) hq
      have hts : t.start ≤ t.stop := hw t (List.mem_cons_self _ _)
      have hstople : t.stop ≤ cov.length := le_trans hle hq
      constructor
      · omega
      · simp only [List.map_cons, List.sum_cons, hsum]
        rw [covSumFrom_eq_sum cov t.stop hstople t.stop t.start (by omega)]
        simp only [Option.getD_some]
        rw [hstart] at hts ⊢
        exact Finset.sum_Ico_consecutive _ hts hle

/-- Claim C9: the interval summarizer returns the sum of the depth values
over the half-open index range [start, end); consequently, for any interval
list that exactly partitions the chromosome, the per-interval aggregates sum
to the sum of the full depth array; and interval [2,5) against depth array
[1,1,5,5,5,1] yields aggregate 15. -/
theorem C9_interval_summation :
    (∀ (cov : List ℕ) (s e : ℕ), e ≤ cov.length →
        covSumFrom cov e s = some (∑ i ∈ Finset.Ico s e, cov.getD i 0))
    ∧ (∀ (cov : List ℕ) (itvs : List ItvChr), itvChain 0 itvs cov.length →
        (∀ t ∈ itvs, t.start ≤ t.stop) →
        (itvs.map (fun t => (covSumFrom cov t.stop t.start).getD 0)).sum = cov.sum)
    ∧ covSumFrom [1, 1, 5, 5, 5, 1] 5 2 = some 15 := by
  refine ⟨fun cov s e he => covSumFrom_eq_sum cov e he e s (by omega), ?_, ?_⟩
  case refine_2 => simp [covSumFrom]; decide
  intro cov itvs hchain hw
  rw [list_sum_eq_sum_getD cov]
  exact (itvChain_sum cov itvs 0 cov.length hchain hw le_rfl).2

/-- Witness for claim C9 at a concrete input: the interval [2,5) summed over
[1,1,5,5,5,1] through the general theorem. -/
theorem C9_interval_summation_witness :
    covSumFrom [1, 1, 5, 5, 5, 1] 5 2
      = some (∑ i ∈ Finset.Ico 2 5, [1, 1, 5, 5, 5, 1].getD i 0) :=
  C9_interval_summation.1 [1, 1, 5, 5, 5, 1] 2 5 (by decide)

/-! ### Artificial window generation (claim C10) -/

theorem artAux_props (wSize wOffset targetLen : ℕ) (chr : String)
    (hS : 0 < wSize) (hO : 0 < wOffset)
    (hbS : targetLen + wSize ≤ 4294967296) (hbO : targetLen + wOffset ≤ 4294967296) :
    ∀ fuel pos, targetLen - pos ≤ fuel →
      ∃ l, artAux wSize wOffset targetLen chr fuel pos = some l ∧
        (∀ t ∈ l, pos ≤ t.start ∧ t.start < targetLen ∧
          t.stop = min (t.start + wSize) targetLen) ∧
        l.Pairwise (fun a b => a.start < b.start) ∧
        (wOffset = wSize →
          (if pos < targetLen then itvChain pos l targetLen else l = [])) := by
  intro fuel
  induction fuel with
  | zero =>
      intro pos hpos
      refine ⟨[], ?_, by simp, by simp, ?_⟩
      · rw [artAux, if_neg (by omega)]
      · intro _
        rw [if_neg (by omega)]
  | succ fuel ih =>
      intro pos hpos
      by_cases hlt : pos < targetLen
      · have hmodS : (pos + wSize) % 4294967296 = pos + wSize :=
          Nat.mod_eq_of_lt (by omega)
        have hmodO : (pos + wOffset) % 4294967296 = pos + wOffset :=
          Nat.mod_eq_of_lt (by omega)
        obtain ⟨l', heq, hmem, hpw, hchain⟩ := ih (pos + wOffset) (by omega)
        have hwl : (if targetLen < (pos + wSize) % 4294967296 then targetLen
              else (pos + wSize) % 4294967296)
            = min (pos + wSize) targetLen := by
          rw [hmodS]
          rcases lt_or_le targetLen (pos + wSize) with h | h
          · rw [if_pos h, min_eq_right (le_of_lt h)]
          · rw [if_neg (by omega), min_eq_left h]
        refine ⟨⟨pos, min (pos + wSize) targetLen,
            chr ++ ":" ++ toString pos ++ "-" ++ toString (min (pos + wSize) targetLen)⟩ :: l',
          ?_, ?_, ?_, ?_⟩
        · rw [artAux, if_pos hlt]
          simp only [hmodO, hwl, heq]
        · intro t ht
          rcases List.mem_cons.mp ht with h | h
          · subst h
            exact ⟨le_refl _, hlt, rfl⟩
          · obtain ⟨h1, h2, h3⟩ := hmem t h
            exact ⟨by omega, h2, h3⟩
        · refine List.Pairwise.cons ?_ hpw
          intro t ht
          have := (hmem t ht).1
          simp only []
          omega
        · intro hOS
          rw [if_pos hlt]
          refine ⟨rfl, ?_⟩
          show itvChain (min (pos + wSize) targetLen) l' targetLen
          by_cases hnext : pos + wOffset < targetLen
          · have := hchain hOS
            rw [if_pos hnext] at this
            have hstop : min (pos + wSize) targetLen = pos + wOffset := by
              rw [min_eq_left (by omega)]
              omega
            rw [hstop]
            exact this
          · have hl' : l' = [] := by
              have := hchain hOS
              rwa [if_neg hnext] at this
            subst hl'
            show min (pos + wSize) targetLen = targetLen
            rw [min_eq_right]
            omega
      · refine ⟨[], ?_, by simp, by simp, ?_⟩
        · rw [artAux, if_neg hlt]
        · intro _
          rw [if_neg hlt]

/-- Counterexample to claim C10 as stated: the artificial window generator
can emit windows violating 0 <= start < end <= target_len.  With window_size
0 and offset 1 every window is empty (start = end); and because the uint32
addition pos + window_size at count_dna.h:114 wraps modulo 2^32, window_size
2^32 - 5 with offset 6 on a chromosome of length 10 emits the interval
(6, 1), whose start exceeds its end and whose end is not
min(start + window_size, target_len). -/
theorem C10_counterexample :
    (createIntervalsArt 0 1 0 "c" 3
        = some [⟨0, 0, "c:0-0"⟩, ⟨1, 1, "c:1-1"⟩, ⟨2, 2, "c:2-2"⟩]
      ∧ (([(⟨0, 0, "c:0-0"⟩ : ItvChr), ⟨1, 1, "c:1-1"⟩, ⟨2, 2, "c:2-2"⟩].all
            (fun t => decide (t.start < t.stop))) = false))
    ∧ createIntervalsArt 4294967291 6 0 "c" 10
        = some [⟨0, 10, "c:0-10"⟩, ⟨6, 1, "c:6-1"⟩]
      ∧ (([(⟨0, 10, "c:0-10"⟩ : ItvChr), ⟨6, 1, "c:6-1"⟩].all
            (fun t => decide (t.start < t.stop))) = false) := by
  refine ⟨⟨?_, ?_⟩, ?_, ?_⟩
  · decide
  · decide
  · decide
  · decide

/-- Claim C10 as amended: whenever the effective window size and offset are
positive and small enough that the 32-bit cursor additions never wrap
(target_len + size and target_len + offset at most 2^32), the artificial
window generator produces, for every target_len > 0, a window list in
strictly increasing start order whose windows satisfy
start < end = min(start + size, target_len) <= target_len, and when the
offset equals the size the windows exactly partition [0, target_len).
Outside these bounds the source wraps: window_size 0 gives empty windows,
offset 0 never terminates, a large window_size wraps window ends below
their starts, and in the window_num > 0 case the effective size
(target_len / window_num + 1 in uint32) itself wraps to 0 when
target_len = 2^32 - 1 and window_num = 1. -/
theorem C10_artificial_windows (cSize cOffset cNum targetLen : ℕ) (chr : String)
    (hLen : 0 < targetLen)
    (hS : 0 < (if 0 < cNum then (targetLen / cNum + 1) % 4294967296 else cSize))
    (hO : 0 < (if 0 < cNum then (targetLen / cNum + 1) % 4294967296 else cOffset))
    (hbS : targetLen + (if 0 < cNum then (targetLen / cNum + 1) % 4294967296 else cSize)
        ≤ 4294967296)
    (hbO : targetLen + (if 0 < cNum then (targetLen / cNum + 1) % 4294967296 else cOffset)
        ≤ 4294967296) :
    ∃ l, createIntervalsArt cSize cOffset cNum chr targetLen = some l ∧
      l.Pairwise (fun a b => a.start < b.start) ∧
      (∀ t ∈ l, t.start < t.stop ∧ t.stop ≤ targetLen ∧
        t.stop = min (t.start
          + (if 0 < cNum then (targetLen / cNum + 1) % 4294967296 else cSize)) targetLen) ∧
      ((if 0 < cNum then (targetLen / cNum + 1) % 4294967296 else cOffset)
          = (if 0 < cNum then (targetLen / cNum + 1) % 4294967296 else cSize) →
        itvChain 0 l targetLen) := by
  set wSize := if 0 < cNum then (targetLen / cNum + 1) % 4294967296 else cSize with hws
  set wOffset := if 0 < cNum then (targetLen / cNum + 1) % 4294967296 else cOffset with hwo
  obtain ⟨l, heq, hmem, hpw, hchain⟩ :=
    artAux_props wSize wOffset targetLen chr hS hO hbS hbO targetLen 0 (by omega)
  refine ⟨l, ?_, hpw, ?_, ?_⟩
  · rw [createIntervalsArt, ← hws, ← hwo]
    exact heq
  · intro t ht
    obtain ⟨h1, h2, h3⟩ := hmem t ht
    refine ⟨?_, ?_, h3⟩
    · rw [h3]
      have : 0 < wSize := hS
      omega
    · rw [h3]
      omega
  · intro hOS
    have := hchain hOS
    rwa [if_pos hLen] at this

/-- Witness for the amended claim C10 at a concrete input: default-style
windows of size 10 and offset 10 over a chromosome of length 25, far below
the 32-bit wrap bounds. -/
theorem C10_artificial_windows_witness :
    ∃ l, createIntervalsArt 10 10 0 "c" 25 = some l ∧
      l.Pairwise (fun a b => a.start < b.start) ∧
      (∀ t ∈ l, t.start < t.stop ∧ t.stop ≤ 25 ∧
        t.stop = min (t.start
          + (if 0 < (0 : ℕ) then (25 / 0 + 1) % 4294967296 else 10)) 25) ∧
      ((if 0 < (0 : ℕ) then (25 / 0 + 1) % 4294967296 else 10)
          = (if 0 < (0 : ℕ) then (25 / 0 + 1) % 4294967296 else 10) →
        itvChain 0 l 25) :=
  C10_artificial_windows 10 10 0 25 "c" (by decide) (by decide) (by decide)
    (by decide) (by decide)


/-! ### Coverage accumulation: saturation and bounds (claims C6 and C7) -/

theorem matchRun_bound (m : ℕ) :
    ∀ (k : ℕ) (cov : List ℕ) (rp : ℕ) (cov2 : List ℕ) (rp2 : ℕ),
      matchRun cov rp k = some (cov2, rp2) →
      (∀ x ∈ cov, x ≤ maxCoverage) →
      (∀ x ∈ cov2, x ≤ maxCoverage) ∧ cov2.length = cov.length ∧ rp2 = rp + k := by
  intro k
  induction k with
  | zero =>
      intro cov rp cov2 rp2 h hb
      rw [matchRun] at h
      simp only [Option.some.injEq, Prod.mk.injEq] at h
      obtain ⟨h1, h2⟩ := h
      subst h1
      subst h2
      exact ⟨hb, rfl, by omega⟩
  | succ k ih =>
      intro cov rp cov2 rp2 h hb
      rw [matchRun] at h
      by_cases hrp : rp < cov.length
      · rw [dif_pos hrp] at h
        have hb2 : ∀ x ∈ cov.set rp
            (if cov.get ⟨rp, hrp⟩ < maxCoverage then cov.get ⟨rp, hrp⟩ + 1
             else cov.get ⟨rp, hrp⟩), x ≤ maxCoverage := by
          intro x hx
          rcases List.mem_or_eq_of_mem_set hx with hx | hx
          · exact hb x hx
          · subst hx
            by_cases hc : cov.get ⟨rp, hrp⟩ < maxCoverage
            · rw [if_pos hc]; omega
            · rw [if_neg hc]
              exact hb _ (cov.get_mem rp hrp)
        obtain ⟨hbb, hlen, hrp2⟩ := ih _ _ _ _ h hb2
        refine ⟨hbb, by rw [hlen, List.length_set], by omega⟩
      · rw [dif_neg hrp] at h
        exact absurd h (by simp)

theorem matchRun_isSome :
    ∀ (k : ℕ) (cov : List ℕ) (rp : ℕ), rp + k ≤ cov.length →
      ∃ cov2, matchRun cov rp k = some (cov2, rp + k) ∧ cov2.length = cov.length := by
  intro k
  induction k with
  | zero =>
      intro cov rp _
      exact ⟨cov, by rw [matchRun]; simp, rfl⟩
  | succ k ih =>
      intro cov rp hk
      have hrp : rp < cov.length := by omega
      obtain ⟨cov2, heq, hlen⟩ := ih
        (cov.set rp (if cov.get ⟨rp, hrp⟩ < maxCoverage then cov.get ⟨rp, hrp⟩ + 1
          else cov.get ⟨rp, hrp⟩))
        (rp + 1) (by rw [List.length_set]; omega)
      refine ⟨cov2, ?_, by rw [hlen, List.length_set]⟩
      rw [matchRun, dif_pos hrp, (by omega : rp + (k + 1) = rp + 1 + k)]
      exact heq

theorem cigarAccum_bound :
    ∀ (ops : List (CigarOp × ℕ)) (cov : List ℕ) (rp : ℕ) (cov2 : List ℕ),
      cigarAccum cov rp ops = some cov2 → (∀ x ∈ cov, x ≤ maxCoverage) →
      (∀ x ∈ cov2, x ≤ maxCoverage) ∧ cov2.length = cov.length := by
  intro ops
  induction ops with
  | nil =>
      intro cov rp cov2 h hb
      rw [cigarAccum] at h
      injection h with h
      subst h
      exact ⟨hb, rfl⟩
  | cons hd ops ih =>
      intro cov rp cov2 h hb
      obtain ⟨op, len⟩ := hd
      rw [cigarAccum] at h
      by_cases hm : op = CigarOp.CMATCH ∨ op = CigarOp.CEQUAL ∨ op = CigarOp.CDIFF
      · rw [if_pos hm] at h
        cases hmr : matchRun cov rp len with
        | none => rw [hmr] at h; exact absurd h (by simp)
        | some p =>
            rw [hmr] at h
            obtain ⟨hb1, hlen1, _⟩ := matchRun_bound maxCoverage len cov rp p.1 p.2 hmr hb
            obtain ⟨hb2, hlen2⟩ := ih p.1 p.2 cov2 h hb1
            exact ⟨hb2, by rw [hlen2, hlen1]⟩
      · rw [if_neg hm] at h
        by_cases hd : op = CigarOp.CDEL
        · rw [if_pos hd] at h
          exact ih cov (rp + len) cov2 h hb
        · rw [if_neg hd] at h
          by_cases hn : op = CigarOp.CREF_SKIP
          · rw [if_pos hn] at h
            exact ih cov (rp + len) cov2 h hb
          · rw [if_neg hn] at h
            exact ih cov rp cov2 h hb

theorem cigarAccumList_bound :
    ∀ (reads : List (ℕ × List (CigarOp × ℕ))) (cov : List ℕ) (cov2 : List ℕ),
      cigarAccumList reads cov = some cov2 → (∀ x ∈ cov, x ≤ maxCoverage) →
      (∀ x ∈ cov2, x ≤ maxCoverage) ∧ cov2.length = cov.length := by
  intro reads
  induction reads with
  | nil =>
      intro cov cov2 h hb
      rw [cigarAccumList] at h
      injection h with h
      subst h
      exact ⟨hb, rfl⟩
  | cons rd rs ih =>
      intro cov cov2 h hb
      rw [cigarAccumList] at h
      cases hmr : cigarAccum cov rd.1 rd.2 with
      | none => rw [hmr] at h; exact absurd h (by simp)
      | some covm =>
          rw [hmr] at h
          obtain ⟨hb1, hlen1⟩ := cigarAccum_bound rd.2 cov rd.1 covm hmr hb
          obtain ⟨hb2, hlen2⟩ := ih covm cov2 h hb1
          exact ⟨hb2, by rw [hlen2, hlen1]⟩

theorem cigarAccum_isSome :
    ∀ (ops : List (CigarOp × ℕ)) (cov : List ℕ) (rp : ℕ),
      rp + refSpan ops ≤ cov.length →
      ∃ cov2, cigarAccum cov rp ops = some cov2 ∧ cov2.length = cov.length := by
  intro ops
  induction ops with
  | nil =>
      intro cov rp _
      exact ⟨cov, by rw [cigarAccum], rfl⟩
  | cons hd ops ih =>
      intro cov rp h
      obtain ⟨op, len⟩ := hd
      by_cases hm : op = CigarOp.CMATCH ∨ op = CigarOp.CEQUAL ∨ op = CigarOp.CDIFF
      · have hspan : refSpan ((op, len) :: ops) = len + refSpan ops := by
          rw [refSpan, if_pos (by tauto)]
        obtain ⟨covm, heqm, hlenm⟩ := matchRun_isSome len cov rp (by omega)
        obtain ⟨cov2, heq2, hlen2⟩ := ih covm (rp + len) (by omega)
        refine ⟨cov2, ?_, by rw [hlen2, hlenm]⟩
        rw [cigarAccum, if_pos hm, heqm]
        exact heq2
      · have hnm : ¬ (op = CigarOp.CMATCH ∨ op = CigarOp.CEQUAL ∨ op = CigarOp.CDIFF
            ∨ op = CigarOp.CDEL ∨ op = CigarOp.CREF_SKIP) ∨
            (op = CigarOp.CDEL ∨ op = CigarOp.CREF_SKIP) := by tauto
        by_cases hdel : op = CigarOp.CDEL
        · have hspan : refSpan ((op, len) :: ops) = len + refSpan ops := by
            rw [refSpan, if_pos (by tauto)]
          obtain ⟨cov2, heq2, hlen2⟩ := ih cov (rp + len) (by omega)
          refine ⟨cov2, ?_, hlen2⟩
          rw [cigarAccum, if_neg hm, if_pos hdel]
          exact heq2
        · by_cases hskip : op = CigarOp.CREF_SKIP
          · have hspan : refSpan ((op, len) :: ops) = len + refSpan ops := by
              rw [refSpan, if_pos (by tauto)]
            obtain ⟨cov2, heq2, hlen2⟩ := ih cov (rp + len) (by omega)
            refine ⟨cov2, ?_, hlen2⟩
            rw [cigarAccum, if_neg hm, if_neg hdel, if_pos hskip]
            exact heq2
          · have hspan : refSpan ((op, len) :: ops) = refSpan ops := by
              rw [refSpan, if_neg (by tauto)]
            obtain ⟨cov2, heq2, hlen2⟩ := ih cov rp (by omega)
            refine ⟨cov2, ?_, hlen2⟩
            rw [cigarAccum, if_neg hm, if_neg hdel, if_neg hskip]
            exact heq2

theorem accumReplicate :
    ∀ (k c : ℕ), c ≤ maxCoverage →
      cigarAccumList (List.replicate k ((0 : ℕ), [(CigarOp.CMATCH, 1)])) [c]
        = some [min (c + k) maxCoverage] := by
  intro k
  induction k with
  | zero =>
      intro c hc
      rw [List.replicate_zero, cigarAccumList]
      have hm : min (c + 0) maxCoverage = c := by omega
      rw [hm]
  | succ k ih =>
      intro c hc
      have hstep : cigarAccum [c] 0 [(CigarOp.CMATCH, 1)]
          = some [if c < maxCoverage then c + 1 else c] := by
        simp [cigarAccum, matchRun]
      have h2 : cigarAccumList
            (List.replicate (k + 1) ((0 : ℕ), [(CigarOp.CMATCH, 1)])) [c]
          = cigarAccumList (List.replicate k ((0 : ℕ), [(CigarOp.CMATCH, 1)]))
              [if c < maxCoverage then c + 1 else c] := by
        rw [List.replicate_succ, cigarAccumList, hstep]
      rw [h2, ih (if c < maxCoverage then c + 1 else c) (by split <;> omega)]
      have hm : min ((if c < maxCoverage then c + 1 else c) + k) maxCoverage
          = min (c + (k + 1)) maxCoverage := by split <;> omega
      rw [hm]

/-- Counterexample to claim C6 as stated: in the per-base CIGAR accumulation
of create_tracks a counter saturates at maxCoverage itself, not at
maxCoverage - 1: 65535 single-base reads over one base drive the counter to
65535, which exceeds maxCoverage - 1. -/
theorem C6_counterexample :
    cigarAccumList (List.replicate 65535 ((0 : ℕ), [(CigarOp.CMATCH, 1)])) [0]
        = some [maxCoverage]
      ∧ ¬ (maxCoverage ≤ maxCoverage - 1) := by
  constructor
  · rw [accumReplicate 65535 0 (by omega)]
    simp [maxCoverage]
  · simp [maxCoverage]

/-- Claim C6 as amended: depth counters saturate and never wrap, but the two
variants use different caps.  The per-base CIGAR accumulation increments a
counter only while it is strictly below maxCoverage and so never exceeds
maxCoverage (not maxCoverage - 1); the midpoint variant increments only
while strictly below maxCoverage - 1 and never exceeds maxCoverage - 1. -/
theorem C6_saturation :
    (∀ (reads : List (ℕ × List (CigarOp × ℕ))) (cov cov2 : List ℕ),
        cigarAccumList reads cov = some cov2 → (∀ x ∈ cov, x ≤ maxCoverage) →
        (∀ x ∈ cov2, x ≤ maxCoverage) ∧ cov2.length = cov.length)
    ∧ (∀ (targetLen : ℕ) (cov : List ℕ) (r : BamRec),
        (∀ x ∈ cov, x ≤ maxCoverage - 1) →
        ∀ x ∈ midCount targetLen cov r, x ≤ maxCoverage - 1) := by
  constructor
  · exact cigarAccumList_bound
  · intro targetLen cov r hb x hx
    simp only [midCount] at hx
    by_cases h1 : (r.pos + halfAlignmentLength r) < (targetLen : ℤ)
    · rw [if_pos h1] at hx
      by_cases h2 : cov.getD (r.pos + halfAlignmentLength r).toNat 0 < maxCoverage - 1
      · rw [if_pos h2] at hx
        rcases List.mem_or_eq_of_mem_set hx with h | h
        · exact hb x h
        · subst h
          omega
      · rw [if_neg h2] at hx
        exact hb x hx
    · rw [if_neg h1] at hx
      exact hb x hx

/-- Witness for the amended claim C6 at a concrete input: one single-base
read over the counter value 65534 yields 65535, which respects the
maxCoverage cap of the CIGAR accumulation. -/
theorem C6_saturation_witness :
    (∀ x ∈ ([65535] : List ℕ), x ≤ maxCoverage)
      ∧ ([65535] : List ℕ).length = ([65534] : List ℕ).length :=
  C6_saturation.1 [((0 : ℕ), [(CigarOp.CMATCH, 1)])] [65534] [65535]
    (by decide) (by decide)

/-- Counterexample to claim C7 as stated: a record whose matched bases
extend past the chromosome length makes the CIGAR walk of create_tracks
access the coverage vector out of bounds (modelled as none) instead of being
ignored. -/
theorem C7_counterexample :
    cigarAccum [0, 0, 0, 0, 0] 3 [(CigarOp.CMATCH, 3)] = none := by decide

/-- Claim C7 as amended: the midpoint variant ignores a midpoint at or
beyond the chromosome length, while the per-base CIGAR walk is unchecked:
it succeeds (with every write strictly below the array length) whenever the
record's aligned reference span fits within the chromosome, and a record
extending past the end is an out-of-bounds access, not an ignored write. -/
theorem C7_bounds :
    (∀ (targetLen : ℕ) (cov : List ℕ) (r : BamRec),
        (targetLen : ℤ) ≤ r.pos + halfAlignmentLength r →
        midCount targetLen cov r = cov)
    ∧ (∀ (ops : List (CigarOp × ℕ)) (cov : List ℕ) (rp : ℕ),
        rp + refSpan ops ≤ cov.length →
        ∃ cov2, cigarAccum cov rp ops = some cov2 ∧ cov2.length = cov.length) := by
  constructor
  · intro targetLen cov r h
    simp only [midCount]
    rw [if_neg (by omega)]
  · exact cigarAccum_isSome

/-- Witness for the amended claim C7 at concrete inputs: a fragment midpoint
at position 6 on a chromosome of length 5 is ignored, and an in-range CIGAR
walk succeeds. -/
theorem C7_bounds_witness :
    midCount 5 [1, 2, 3, 4, 5]
        ⟨0, 0, 4, 4, 30, 9, true, false, false, false, false, false, false,
          [(CigarOp.CMATCH, 4)]⟩ = [1, 2, 3, 4, 5]
      ∧ ∃ cov2, cigarAccum [0, 0, 0, 0, 0] 1
          [(CigarOp.CMATCH, 2), (CigarOp.CDEL, 1), (CigarOp.CMATCH, 1)] = some cov2
          ∧ cov2.length = ([0, 0, 0, 0, 0] : List ℕ).length :=
  ⟨C7_bounds.1 5 [1, 2, 3, 4, 5] _ (by decide),
   C7_bounds.2 [(CigarOp.CMATCH, 2), (CigarOp.CDEL, 1), (CigarOp.CMATCH, 1)]
     [0, 0, 0, 0, 0] 1 (by decide)⟩

/-! ### Run-length encoding and segment invariants (claims C2, C3, C8) -/

theorem rleAux_chain :
    ∀ (cs : List ℕ) (i wb we wval : ℕ) (nf : ℚ), we + 1 = i → wb ≤ we →
      trackChain wb (rleAux nf cs i wb we wval) (i + cs.length)
      ∧ ∀ t ∈ rleAux nf cs i wb we wval, t.start < t.stop := by
  intro cs
  induction cs with
  | nil =>
      intro i wb we wval nf hi hwb
      rw [rleAux]
      refine ⟨⟨rfl, ?_⟩, ?_⟩
      · show (we + 1 : ℕ) = i + [].length
        simp [hi]
      · intro t ht
        rcases List.mem_singleton.mp ht with h
        subst h
        show wb < we + 1
        omega
  | cons c cs ih =>
      intro i wb we wval nf hi hwb
      rw [rleAux]
      by_cases hc : c = wval
      · rw [if_pos hc]
        obtain ⟨h1, h2⟩ := ih (i + 1) wb (we + 1) wval nf (by omega) (by omega)
        refine ⟨?_, h2⟩
        have : i + 1 + cs.length = i + (c :: cs).length := by simp; omega
        rwa [this] at h1
      · rw [if_neg hc]
        obtain ⟨h1, h2⟩ := ih (i + 1) i i c nf rfl le_rfl
        refine ⟨⟨rfl, ?_⟩, ?_⟩
        · show trackChain (we + 1) _ _
          have : i + 1 + cs.length = i + (c :: cs).length := by simp; omega
          rw [hi]
          rwa [this] at h1
        · intro t ht
          rcases List.mem_cons.mp ht with h | h
          · subst h
            show wb < we + 1
            omega
          · exact h2 t h

theorem rleAux_expand :
    ∀ (cs : List ℕ) (i wb we wval : ℕ) (nf : ℚ), wb ≤ we + 1 →
      expandSeg (rleAux nf cs i wb we wval)
        = List.replicate (we + 1 - wb) (nf * (wval : ℚ))
            ++ cs.map (fun c => nf * (c : ℚ)) := by
  intro cs
  induction cs with
  | nil =>
      intro i wb we wval nf hwb
      rw [rleAux]
      simp [expandSeg, segWidth]
  | cons c cs ih =>
      intro i wb we wval nf hwb
      rw [rleAux]
      by_cases hc : c = wval
      · rw [if_pos hc]
        rw [ih (i + 1) wb (we + 1) wval nf (by omega)]
        have hrep : List.replicate (we + 1 + 1 - wb) (nf * (wval : ℚ))
            = List.replicate (we + 1 - wb) (nf * (wval : ℚ)) ++ [nf * (wval : ℚ)] := by
          have : we + 1 + 1 - wb = (we + 1 - wb) + 1 := by omega
          rw [this, List.replicate_succ']
        rw [hrep, List.append_assoc]
        subst hc
        simp
      · rw [if_neg hc]
        have hef : expandSeg (⟨wb, we + 1, nf * (wval : ℚ)⟩ :: rleAux nf cs (i + 1) i i c)
            = List.replicate (we + 1 - wb) (nf * (wval : ℚ))
                ++ expandSeg (rleAux nf cs (i + 1) i i c) := by
          show List.flatMap _ _ = _
          rw [List.flatMap_cons]
          rfl
        rw [hef, ih (i + 1) i i c nf (by omega)]
        simp

theorem rleAux_scores :
    ∀ (cs : List ℕ) (i wb we wval : ℕ),
      ∃ hd tl, rleAux 1 cs i wb we wval = hd :: tl ∧ hd.score = (wval : ℚ)
        ∧ List.Chain' (fun a b => a.score ≠ b.score) (hd :: tl) := by
  intro cs
  induction cs with
  | nil =>
      intro i wb we wval
      rw [rleAux]
      exact ⟨_, _, rfl, one_mul _, List.chain'_singleton _⟩
  | cons c cs ih =>
      intro i wb we wval
      rw [rleAux]
      by_cases hc : c = wval
      · rw [if_pos hc]
        exact ih (i + 1) wb (we + 1) wval
      · rw [if_neg hc]
        obtain ⟨hd, tl, heq, hsc, hch⟩ := ih (i + 1) i i c
        refine ⟨⟨wb, we + 1, 1 * (wval : ℚ)⟩, hd :: tl, by rw [heq], one_mul _, ?_⟩
        refine List.Chain'.cons ?_ hch
        show (1 : ℚ) * (wval : ℚ) ≠ hd.score
        rw [one_mul, hsc]
        intro hcontra
        exact hc (by exact_mod_cast hcontra.symm)

theorem rleAux_ne_nil :
    ∀ (cs : List ℕ) (i wb we wval : ℕ) (nf : ℚ), rleAux nf cs i wb we wval ≠ [] := by
  intro cs
  induction cs with
  | nil =>
      intro i wb we wval nf
      rw [rleAux]
      simp
  | cons c cs ih =>
      intro i wb we wval nf
      rw [rleAux]
      by_cases hc : c = wval
      · rw [if_pos hc]
        exact ih (i + 1) wb (we + 1) wval nf
      · rw [if_neg hc]
        simp

theorem rleTracks_covers (nf : ℚ) (cov : List ℕ) (h : cov ≠ []) :
    coversArray cov.length (rleTracks nf cov) := by
  match cov with
  | [] => exact absurd rfl h
  | c :: cs =>
      rw [rleTracks]
      obtain ⟨h1, h2⟩ := rleAux_chain cs 1 0 0 c nf rfl le_rfl
      refine ⟨rleAux_ne_nil cs 1 0 0 c nf, ?_, h2⟩
      have hlen : (1 : ℕ) + cs.length = (c :: cs).length := by
        simp [Nat.add_comm]
      rwa [hlen] at h1

theorem rleTracks_expand (nf : ℚ) (cov : List ℕ) (h : cov ≠ []) :
    expandSeg (rleTracks nf cov) = cov.map (fun c => nf * (c : ℚ)) := by
  match cov with
  | [] => exact absurd rfl h
  | c :: cs =>
      rw [rleTracks, rleAux_expand cs 1 0 0 c nf (by omega)]
      simp

theorem expandSeg_cons (t : Track) (ts : List Track) :
    expandSeg (t :: ts) = List.replicate (segWidth t) t.score ++ expandSeg ts := by
  show List.flatMap _ _ = _
  rw [List.flatMap_cons]
  rfl

theorem expandSeg_eq_nil (l : List Track) (hw : ∀ t ∈ l, t.start < t.stop) :
    expandSeg l = [] → l = [] := by
  cases l with
  | nil => intro _; rfl
  | cons t ts =>
      intro hx
      rw [expandSeg_cons] at hx
      have hwid : segWidth t ≠ 0 := by
        have := hw t (List.mem_cons_self _ _)
        unfold segWidth
        omega
      exfalso
      rcases List.append_eq_nil.mp hx with ⟨h1, _⟩
      exact hwid (by simpa using congrArg List.length h1)

theorem expandSeg_head (t : Track) (ts : List Track) (hw : t.start < t.stop) :
    (expandSeg (t :: ts)).head? = some t.score := by
  rw [expandSeg_cons]
  have hwid : segWidth t ≠ 0 := by unfold segWidth; omega
  obtain ⟨k, hk⟩ := Nat.exists_eq_succ_of_ne_zero hwid
  rw [hk, List.replicate_succ]
  rfl

theorem replicate_cancel :
    ∀ (w1 : ℕ) (a : ℚ) (r1 r2 : List ℚ) (w2 : ℕ),
      List.replicate w1 a ++ r1 = List.replicate w2 a ++ r2 →
      (∀ b ∈ r1.head?, b ≠ a) → (∀ b ∈ r2.head?, b ≠ a) →
      w1 = w2 ∧ r1 = r2 := by
  intro w1
  induction w1 with
  | zero =>
      intro a r1 r2 w2 heq h1 h2
      cases w2 with
      | zero => simpa using heq
      | succ k =>
          rw [List.replicate_zero, List.nil_append, List.replicate_succ,
            List.cons_append] at heq
          exact absurd rfl (h1 a (by rw [heq]; simp))
  | succ k ih =>
      intro a r1 r2 w2 heq h1 h2
      cases w2 with
      | zero =>
          rw [List.replicate_zero, List.nil_append, List.replicate_succ,
            List.cons_append] at heq
          exact absurd rfl (h2 a (by rw [← heq]; simp))
      | succ m =>
          rw [List.replicate_succ, List.cons_append, List.replicate_succ,
            List.cons_append] at heq
          injection heq with _ heq2
          obtain ⟨hw, hr⟩ := ih a r1 r2 m heq2 h1 h2
          exact ⟨by omega, hr⟩

theorem track_fields_eq (t1 t2 : Track) (h1 : t1.start = t2.start)
    (h2 : t1.stop = t2.stop) (h3 : t1.score = t2.score) : t1 = t2 := by
  cases t1
  cases t2
  simp only at h1 h2 h3
  rw [h1, h2, h3]

theorem segUnique :
    ∀ (l1 l2 : List Track) (s q1 q2 : ℕ),
      trackChain s l1 q1 → trackChain s l2 q2 →
      (∀ t ∈ l1, t.start < t.stop) → (∀ t ∈ l2, t.start < t.stop) →
      List.Chain' (fun a b => a.score ≠ b.score) l1 →
      List.Chain' (fun a b => a.score ≠ b.score) l2 →
      expandSeg l1 = expandSeg l2 → l1 = l2 := by
  intro l1
  induction l1 with
  | nil =>
      intro l2 s q1 q2 _ _ _ hw2 _ _ hexp
      have hnil : expandSeg l2 = [] := by
        rw [← hexp]
        rfl
      exact (expandSeg_eq_nil l2 hw2 hnil).symm
  | cons t1 ts1 ih =>
      intro l2 s q1 q2 hc1 hc2 hw1 hw2 hs1 hs2 hexp
      cases l2 with
      | nil =>
          exfalso
          have hnil : expandSeg (t1 :: ts1) = [] := by
            rw [hexp]
            rfl
          exact List.cons_ne_nil t1 ts1 (expandSeg_eq_nil _ hw1 hnil)
      | cons t2 ts2 =>
          simp only [trackChain] at hc1 hc2
          obtain ⟨hst1, hch1⟩ := hc1
          obtain ⟨hst2, hch2⟩ := hc2
          have hwt1 : t1.start < t1.stop := hw1 t1 (List.mem_cons_self _ _)
          have hwt2 : t2.start < t2.stop := hw2 t2 (List.mem_cons_self _ _)
          have hscore : t1.score = t2.score := by
            have e1 := expandSeg_head t1 ts1 hwt1
            have e2 := expandSeg_head t2 ts2 hwt2
            rw [hexp] at e1
            rw [e2] at e1
            injection e1 with e1
            exact e1.symm
          have hhead1 : ∀ b ∈ (expandSeg ts1).head?, b ≠ t1.score := by
            cases ts1 with
            | nil => intro b hb; simp [expandSeg] at hb
            | cons u us =>
                intro b hb
                rw [expandSeg_head u us (hw1 u (by simp))] at hb
                have hrel := (List.chain'_cons'.mp hs1).1 u rfl
                simp only [Option.mem_def, Option.some.injEq] at hb
                subst hb
                exact fun hcon => hrel hcon.symm
          have hhead2 : ∀ b ∈ (expandSeg ts2).head?, b ≠ t1.score := by
            cases ts2 with
            | nil => intro b hb; simp [expandSeg] at hb
            | cons u us =>
                intro b hb
                rw [expandSeg_head u us (hw2 u (by simp))] at hb
                have hrel := (List.chain'_cons'.mp hs2).1 u rfl
                simp only [Option.mem_def, Option.some.injEq] at hb
                subst hb
                exact fun hcon => hrel (by rw [hcon, hscore])
          have hexp2 : List.replicate (segWidth t1) t1.score ++ expandSeg ts1
              = List.replicate (segWidth t2) t1.score ++ expandSeg ts2 := by
            rw [← expandSeg_cons, hexp, expandSeg_cons, hscore]
          obtain ⟨hwid, hrest⟩ :=
            replicate_cancel (segWidth t1) t1.score (expandSeg ts1) (expandSeg ts2)
              (segWidth t2) hexp2 hhead1 hhead2
          have hstop : t1.stop = t2.stop := by
            unfold segWidth at hwid
            omega
          have ht : t1 = t2 := track_fields_eq t1 t2 (by rw [hst1, hst2]) hstop hscore
          have hts : ts1 = ts2 := by
            refine ih ts2 t1.stop q1 q2 hch1 ?_ (fun u hu => hw1 u (by simp [hu]))
              (fun u hu => hw2 u (by simp [hu]))
              (List.chain'_cons'.mp hs1).2 (List.chain'_cons'.mp hs2).2 hrest
            rw [hstop]
            exact hch2
          rw [ht, hts]

theorem rleTracks_scores (cov : List ℕ) (h : cov ≠ []) :
    List.Chain' (fun a b => a.score ≠ b.score) (rleTracks 1 cov) := by
  match cov with
  | [] => exact absurd rfl h
  | c :: cs =>
      rw [rleTracks]
      obtain ⟨hd, tl, heq, _, hch⟩ := rleAux_scores cs 1 0 0 c
      rw [heq]
      exact hch

/-- Claim C2: with the resolution target disabled (at most 0 or at least 1)
the segment compressor returns the run-length encoding unmodified, and
re-expanding that segment list reproduces the original depth array exactly
(scores equal depths because normalization is disabled, i.e. the
normalization factor is 1). -/
theorem C2_roundtrip (res : ℚ) (cov : List ℕ) (h : cov ≠ [])
    (hres : res ≤ 0 ∨ 1 ≤ res) :
    createTrackLine res 1 cov = rleTracks 1 cov
    ∧ expandSeg (createTrackLine res 1 cov) = cov.map (fun c => (c : ℚ)) := by
  have hno : ¬ (0 < res ∧ res < 1) := by
    rcases hres with h1 | h1
    · intro hcon; linarith [hcon.1]
    · intro hcon; linarith [hcon.2]
  have heq : createTrackLine res 1 cov = rleTracks 1 cov := by
    simp only [createTrackLine]
    rw [if_neg hno]
  refine ⟨heq, ?_⟩
  rw [heq, rleTracks_expand 1 cov h]
  simp

/-- Witness for claim C2 at a concrete input: resolution 2 (disabled) on the
depth array [0,0,3,3,3,0]. -/
theorem C2_roundtrip_witness :
    createTrackLine 2 1 [0, 0, 3, 3, 3, 0] = rleTracks 1 [0, 0, 3, 3, 3, 0]
    ∧ expandSeg (createTrackLine 2 1 [0, 0, 3, 3, 3, 0])
        = [0, 0, 3, 3, 3, 0].map (fun c => (c : ℚ)) :=
  C2_roundtrip 2 [0, 0, 3, 3, 3, 0] (by decide) (Or.inr (by norm_num))

/-- Claim C3: the initial pass of the segment compressor produces the
maximal run-length encoding: it covers the array, adjacent segments carry
distinct scores, its expansion reproduces the array, and it is the unique
such segment list; the depth array [0,0,3,3,3,0] yields the segments
(0,2,0), (2,5,3), (5,6,0). -/
theorem C3_maximal_rle :
    (∀ (cov : List ℕ), cov ≠ [] →
        coversArray cov.length (rleTracks 1 cov)
        ∧ List.Chain' (fun a b => a.score ≠ b.score) (rleTracks 1 cov)
        ∧ expandSeg (rleTracks 1 cov) = cov.map (fun c => (c : ℚ)))
    ∧ (∀ (cov : List ℕ) (l : List Track), cov ≠ [] →
        trackChain 0 l cov.length → (∀ t ∈ l, t.start < t.stop) →
        List.Chain' (fun a b => a.score ≠ b.score) l →
        expandSeg l = cov.map (fun c => (c : ℚ)) →
        l = rleTracks 1 cov)
    ∧ rleTracks 1 [0, 0, 3, 3, 3, 0] = [⟨0, 2, 0⟩, ⟨2, 5, 3⟩, ⟨5, 6, 0⟩] := by
  have hexp : ∀ (cov : List ℕ), cov ≠ [] →
      expandSeg (rleTracks 1 cov) = cov.map (fun c => (c : ℚ)) := by
    intro cov h
    rw [rleTracks_expand 1 cov h]
    simp
  refine ⟨?_, ?_, by norm_num [rleTracks, rleAux]⟩
  · intro cov h
    exact ⟨rleTracks_covers 1 cov h, rleTracks_scores cov h, hexp cov h⟩
  · intro cov l h hchain hw hscores hex
    obtain ⟨_, hrchain, hrw⟩ := rleTracks_covers 1 cov h
    exact segUnique l (rleTracks 1 cov) 0 cov.length cov.length hchain hrchain hw hrw
      hscores (rleTracks_scores cov h) (by rw [hex, hexp cov h])

/-- Witness for claim C3 at a concrete input: the characterization of the
run-length encoding of [0,0,3,3,3,0] through the general theorem. -/
theorem C3_maximal_rle_witness :
    coversArray ([0, 0, 3, 3, 3, 0] : List ℕ).length (rleTracks 1 [0, 0, 3, 3, 3, 0])
    ∧ List.Chain' (fun a b => a.score ≠ b.score) (rleTracks 1 [0, 0, 3, 3, 3, 0])
    ∧ expandSeg (rleTracks 1 [0, 0, 3, 3, 3, 0])
        = [0, 0, 3, 3, 3, 0].map (fun c => (c : ℚ)) :=
  C3_maximal_rle.1 [0, 0, 3, 3, 3, 0] (by decide)

theorem mergeScan_ne_nil :
    ∀ (rest : List Track) (cur : Track) (thres : ℚ), mergeScan thres cur rest ≠ [] := by
  intro rest
  induction rest with
  | nil => intro cur thres; rw [mergeScan]; simp
  | cons nxt rest ih =>
      intro cur thres
      rw [mergeScan]
      by_cases hm : mergeCost cur nxt ≤ thres
      · rw [if_pos hm]; exact ih _ thres
      · rw [if_neg hm]; simp

theorem mergeScan_chain :
    ∀ (rest : List Track) (cur : Track) (q : ℕ) (thres : ℚ),
      trackChain cur.stop rest q → cur.start < cur.stop →
      (∀ t ∈ rest, t.start < t.stop) →
      trackChain cur.start (mergeScan thres cur rest) q
      ∧ ∀ t ∈ mergeScan thres cur rest, t.start < t.stop := by
  intro rest
  induction rest with
  | nil =>
      intro cur q thres hch hcur _
      rw [mergeScan]
      simp only [trackChain] at hch
      refine ⟨⟨rfl, hch⟩, ?_⟩
      intro t ht
      rcases List.mem_singleton.mp ht with h
      subst h
      exact hcur
  | cons nxt rest ih =>
      intro cur q thres hch hcur hw
      simp only [trackChain] at hch
      obtain ⟨hstart, hch2⟩ := hch
      have hnxt : nxt.start < nxt.stop := hw nxt (by simp)
      rw [mergeScan]
      by_cases hm : mergeCost cur nxt ≤ thres
      · rw [if_pos hm]
        exact ih ⟨cur.start, nxt.stop, mergeVal cur nxt⟩ q thres hch2 (by simp; omega)
          (fun t ht => hw t (by simp [ht]))
      · rw [if_neg hm]
        obtain ⟨h1, h2⟩ := ih nxt q thres hch2 hnxt (fun t ht => hw t (by simp [ht]))
        rw [hstart] at h1
        refine ⟨⟨rfl, h1⟩, ?_⟩
        intro t ht
        rcases List.mem_cons.mp ht with h | h
        · subst h; exact hcur
        · exact h2 t h

theorem trackChain_le :
    ∀ (l : List Track) (p q : ℕ), trackChain p l q → (∀ t ∈ l, t.start < t.stop) →
      (∀ t ∈ l, p ≤ t.start) ∧ p ≤ q := by
  intro l
  induction l with
  | nil =>
      intro p q hch _
      simp only [trackChain] at hch
      exact ⟨by simp, by omega⟩
  | cons t ts ih =>
      intro p q hch hw
      simp only [trackChain] at hch
      obtain ⟨hstart, hch2⟩ := hch
      obtain ⟨h1, h2⟩ := ih t.stop q hch2 (fun u hu => hw u (by simp [hu]))
      have hts : t.start < t.stop := hw t (by simp)
      refine ⟨?_, by omega⟩
      intro u hu
      rcases List.mem_cons.mp hu with h | h
      · subst h; omega
      · have := h1 u h; omega

theorem trackChain_pairwise :
    ∀ (l : List Track) (p q : ℕ), trackChain p l q → (∀ t ∈ l, t.start < t.stop) →
      l.Pairwise (fun a b => a.start < b.start) := by
  intro l
  induction l with
  | nil => intro p q _ _; exact List.Pairwise.nil
  | cons t ts ih =>
      intro p q hch hw
      simp only [trackChain] at hch
      obtain ⟨hstart, hch2⟩ := hch
      refine List.Pairwise.cons ?_ (ih t.stop q hch2 (fun u hu => hw u (by simp [hu])))
      intro u hu
      have h1 := (trackChain_le ts t.stop q hch2 (fun v hv => hw v (by simp [hv]))).1 u hu
      have hts : t.start < t.stop := hw t (by simp)
      omega

/-- Claim C8: the segment list covers the depth array exactly once — it is
non-empty, starts at 0, is contiguous and stops at the array length with
non-degenerate segments — after the initial run-length encoding, after every
merge pass, and after the whole reduction loop; contiguity with positive
widths makes the list strictly ordered by start. -/
theorem C8_segment_invariants :
    (∀ (nf : ℚ) (cov : List ℕ), cov ≠ [] → coversArray cov.length (rleTracks nf cov))
    ∧ (∀ (n : ℕ) (thres : ℚ) (l : List Track),
        coversArray n l → coversArray n (mergePass thres l))
    ∧ (∀ (n : ℕ) (res : ℚ) (origs fuel : ℕ) (l : List Track),
        coversArray n l → coversArray n (reduceLoop res origs fuel l))
    ∧ (∀ (n : ℕ) (l : List Track), coversArray n l →
        l.Pairwise (fun a b => a.start < b.start)) := by
  have hpass : ∀ (n : ℕ) (thres : ℚ) (l : List Track),
      coversArray n l → coversArray n (mergePass thres l) := by
    intro n thres l hc
    obtain ⟨hne, hchain, hw⟩ := hc
    match l with
    | [] => exact absurd rfl hne
    | a :: rest =>
        rw [mergePass]
        simp only [trackChain] at hchain
        obtain ⟨ha, hch⟩ := hchain
        obtain ⟨h1, h2⟩ := mergeScan_chain rest a n thres hch (hw a (by simp))
          (fun t ht => hw t (by simp [ht]))
        rw [ha] at h1
        exact ⟨mergeScan_ne_nil rest a thres, h1, h2⟩
  refine ⟨fun nf cov h => rleTracks_covers nf cov h, hpass, ?_, ?_⟩
  · intro n res origs fuel
    induction fuel with
    | zero =>
        intro l hc
        rw [reduceLoop]
        exact hc
    | succ fuel ih =>
        intro l hc
        rw [reduceLoop]
        by_cases hg : loopGuard res origs l
        · rw [if_pos hg]
          exact ih _ (hpass n _ l hc)
        · rw [if_neg hg]
          exact hc
  · intro n l hc
    exact trackChain_pairwise l 0 n hc.2.1 hc.2.2

/-- Witness for claim C8 at a concrete input: the run-length encoding of
[0,0,3,3,3,0] covers the array and is strictly ordered by start. -/
theorem C8_segment_invariants_witness :
    coversArray ([0, 0, 3, 3, 3, 0] : List ℕ).length (rleTracks 1 [0, 0, 3, 3, 3, 0])
    ∧ (rleTracks 1 [0, 0, 3, 3, 3, 0]).Pairwise (fun a b => a.start < b.start) :=
  ⟨C8_segment_invariants.1 1 [0, 0, 3, 3, 3, 0] (by decide),
   C8_segment_invariants.2.2.2 ([0, 0, 3, 3, 3, 0] : List ℕ).length _
     (C8_segment_invariants.1 1 [0, 0, 3, 3, 3, 0] (by decide))⟩

/-! ### Reduction loop: strict decrease and termination (claim C4) -/

theorem mergeScan_length_le :
    ∀ (rest : List Track) (cur : Track) (thres : ℚ),
      (mergeScan thres cur rest).length ≤ rest.length + 1 := by
  intro rest
  induction rest with
  | nil => intro cur thres; rw [mergeScan]; simp
  | cons nxt rest ih =>
      intro cur thres
      rw [mergeScan]
      by_cases hm : mergeCost cur nxt ≤ thres
      · rw [if_pos hm]
        have := ih ⟨cur.start, nxt.stop, mergeVal cur nxt⟩ thres
        simp only [List.length_cons]
        omega
      · rw [if_neg hm]
        have := ih nxt thres
        simp only [List.length_cons]
        omega

theorem errsOf_cons (a b : Track) (rest : List Track) :
    errsOf (a :: b :: rest) = mergeCost a b :: errsOf (b :: rest) := rfl

theorem mergeScan_length_lt :
    ∀ (rest : List Track) (cur : Track) (thres : ℚ),
      (∃ e ∈ errsOf (cur :: rest), e ≤ thres) →
      (mergeScan thres cur rest).length ≤ rest.length := by
  intro rest
  induction rest with
  | nil =>
      intro cur thres h
      obtain ⟨e, he, _⟩ := h
      exact absurd he (by simp [errsOf])
  | cons nxt rest ih =>
      intro cur thres h
      rw [mergeScan]
      by_cases hm : mergeCost cur nxt ≤ thres
      · rw [if_pos hm]
        have := mergeScan_length_le rest ⟨cur.start, nxt.stop, mergeVal cur nxt⟩ thres
        simp only [List.length_cons]
        omega
      · rw [if_neg hm]
        obtain ⟨e, he, hle⟩ := h
        rw [errsOf_cons] at he
        rcases List.mem_cons.mp he with h1 | h1
        · exact absurd hle (by rw [h1]; exact hm)
        · have := ih nxt thres ⟨e, h1, hle⟩
          simp only [List.length_cons]
          omega

theorem thresOf_mem (res : ℚ) (origs : ℕ) (l : List Track)
    (h2 : 2 ≤ l.length) (hlo : l.length ≤ origs) (hres : 0 < res)
    (hguard : res < (l.length : ℚ) / (origs : ℚ)) :
    thresOf res origs l ∈ errsOf l := by
  have horigs : 0 < origs := by omega
  have herrlen : (errsOf l).length = l.length - 1 := by
    rw [errsOf, List.length_zipWith, List.length_tail]
    omega
  have hlpos : (0 : ℚ) < (l.length : ℚ) := by
    have : (0 : ℕ) < l.length := by omega
    exact_mod_cast this
  have hred1 : (l.length : ℚ) / (origs : ℚ) ≤ 1 := by
    rw [div_le_one (by exact_mod_cast horigs)]
    exact_mod_cast hlo
  have hx : ((l.length : ℚ) / (origs : ℚ) - res) * (l.length : ℚ) < (l.length : ℚ) := by
    have h1 : (l.length : ℚ) / (origs : ℚ) - res < 1 := by linarith
    have h0 : (0 : ℚ) ≤ (l.length : ℚ) / (origs : ℚ) - res := by linarith
    calc ((l.length : ℚ) / (origs : ℚ) - res) * (l.length : ℚ)
        < 1 * (l.length : ℚ) := by
          exact mul_lt_mul_of_pos_right h1 hlpos
      _ = (l.length : ℚ) := one_mul _
  have hb0 : ⌊((l.length : ℚ) / (origs : ℚ) - res) * (l.length : ℚ)⌋₊ < l.length := by
    have h0' : (0 : ℚ) ≤ ((l.length : ℚ) / (origs : ℚ) - res) * (l.length : ℚ) :=
      mul_nonneg (by linarith) (le_of_lt hlpos)
    rw [Nat.floor_lt h0']
    exact_mod_cast hx
  simp only [thresOf]
  set bp0 := ⌊((l.length : ℚ) / (origs : ℚ) - res) * (l.length : ℚ)⌋₊ with hbp0
  have hbp : (if 0 < bp0 then bp0 - 1 else bp0) < (sortedErrs l).length := by
    have hsl : (sortedErrs l).length = (errsOf l).length := by
      unfold sortedErrs
      rw [List.length_mergeSort]
    rw [hsl, herrlen]
    by_cases hc : 0 < bp0
    · rw [if_pos hc]; omega
    · rw [if_neg hc]; omega
  rw [List.getD_eq_getElem _ _ hbp]
  have hmem := List.getElem_mem hbp
  unfold sortedErrs at hmem
  exact List.mem_mergeSort.mp hmem

theorem mergePass_le (thres : ℚ) (l : List Track) :
    (mergePass thres l).length ≤ l.length := by
  match l with
  | [] => rw [mergePass]
  | a :: rest =>
      rw [mergePass]
      have := mergeScan_length_le rest a thres
      simp only [List.length_cons]
      omega

theorem mergePass_lt (res : ℚ) (origs : ℕ) (l : List Track)
    (hres : 0 < res) (hlo : l.length ≤ origs) (hg : loopGuard res origs l) :
    (mergePass (thresOf res origs l) l).length < l.length := by
  obtain ⟨hlen, hratio⟩ := hg
  match l with
  | [] => simp at hlen
  | a :: rest =>
      have hmem := thresOf_mem res origs (a :: rest) (by simpa using hlen) hlo hres hratio
      rw [mergePass]
      have := mergeScan_length_lt rest a (thresOf res origs (a :: rest))
        ⟨thresOf res origs (a :: rest), hmem, le_refl _⟩
      simp only [List.length_cons]
      omega

theorem reduceLoop_le (res : ℚ) (origs : ℕ) :
    ∀ (fuel : ℕ) (l : List Track), (reduceLoop res origs fuel l).length ≤ l.length := by
  intro fuel
  induction fuel with
  | zero => intro l; rw [reduceLoop]
  | succ fuel ih =>
      intro l
      rw [reduceLoop]
      by_cases hg : loopGuard res origs l
      · rw [if_pos hg]
        have h1 := ih (mergePass (thresOf res origs l) l)
        have h2 := mergePass_le (thresOf res origs l) l
        omega
      · rw [if_neg hg]

theorem reduceLoop_stops (res : ℚ) (origs : ℕ) (hres : 0 < res) :
    ∀ (fuel : ℕ) (l : List Track), l.length ≤ origs → l.length ≤ fuel + 1 →
      ¬ loopGuard res origs (reduceLoop res origs fuel l) := by
  intro fuel
  induction fuel with
  | zero =>
      intro l hlo hfl
      rw [reduceLoop]
      intro hg
      have := hg.1
      omega
  | succ fuel ih =>
      intro l hlo hfl
      rw [reduceLoop]
      by_cases hg : loopGuard res origs l
      · rw [if_pos hg]
        have hlt := mergePass_lt res origs l hres hlo hg
        have hle := mergePass_le (thresOf res origs l) l
        exact ih (mergePass (thresOf res origs l) l) (by omega) (by omega)
      · rw [if_neg hg]
        exact hg

/-- Claim C4: whenever the loop guard holds (more than one segment and ratio
above the target) with a positive resolution and at most the original number
of segments, one merge pass strictly decreases the segment count (the
threshold is itself one of the adjacent-pair costs, so at least one pair is
merged); a pass never increases the count, the loop never increases the
count across iterations, and after at most the original segment count many
iterations the loop guard fails (the loop has terminated: one segment left
or the resolution target reached). -/
theorem C4_reduction_termination :
    (∀ (res : ℚ) (origs : ℕ) (l : List Track), 0 < res → l.length ≤ origs →
        loopGuard res origs l →
        (mergePass (thresOf res origs l) l).length < l.length)
    ∧ (∀ (thres : ℚ) (l : List Track), (mergePass thres l).length ≤ l.length)
    ∧ (∀ (res : ℚ) (origs fuel : ℕ) (l : List Track),
        (reduceLoop res origs fuel l).length ≤ l.length)
    ∧ (∀ (res : ℚ) (origs fuel : ℕ) (l : List Track), 0 < res →
        l.length ≤ origs → l.length ≤ fuel + 1 →
        ¬ loopGuard res origs (reduceLoop res origs fuel l)) :=
  ⟨fun res origs l hres hlo hg => mergePass_lt res origs l hres hlo hg,
   fun thres l => mergePass_le thres l,
   fun res origs fuel l => reduceLoop_le res origs fuel l,
   fun res origs fuel l hres hlo hfl => reduceLoop_stops res origs hres fuel l hlo hfl⟩

/-- Witness for claim C4 at a concrete input: the run-length encoding of
[0,0,3,3,3,0] (three segments) with resolution 1/2 and original count 3
loses at least one segment in the first pass, and the loop guard fails
after three iterations. -/
theorem C4_reduction_termination_witness :
    (mergePass (thresOf (1/2 : ℚ) 3 (rleTracks 1 [0, 0, 3, 3, 3, 0]))
        (rleTracks 1 [0, 0, 3, 3, 3, 0])).length
      < (rleTracks 1 [0, 0, 3, 3, 3, 0]).length
    ∧ ¬ loopGuard (1/2 : ℚ) 3 (reduceLoop (1/2 : ℚ) 3 3 (rleTracks 1 [0, 0, 3, 3, 3, 0])) :=
  ⟨C4_reduction_termination.1 (1/2 : ℚ) 3 (rleTracks 1 [0, 0, 3, 3, 3, 0])
      (by norm_num) (by norm_num [rleTracks, rleAux])
      (by constructor
          · norm_num [rleTracks, rleAux]
          · norm_num [rleTracks, rleAux]),
   C4_reduction_termination.2.2.2 (1/2 : ℚ) 3 3 (rleTracks 1 [0, 0, 3, 3, 3, 0])
      (by norm_num) (by norm_num [rleTracks, rleAux]) (by norm_num [rleTracks, rleAux])⟩

/-! ### Pair resolver: characterization of one step (claims C1 and C5) -/

theorem cleanupState_qualities (st : RState) (r : BamRec) :
    (cleanupState st r).qualities = st.qualities := by
  rw [cleanupState]
  split <;> rfl

theorem cleanupState_lastAligned (st : RState) (r : BamRec) :
    (cleanupState st r).lastAlignedPos = st.lastAlignedPos
    ∨ (st.lastAlignedPos < r.pos ∧ (cleanupState st r).lastAlignedPos = r.pos) := by
  rw [cleanupState]
  split
  · next h => exact Or.inr ⟨h, rfl⟩
  · exact Or.inl rfl

theorem cleanupState_le (st : RState) (r : BamRec) :
    st.lastAlignedPos ≤ (cleanupState st r).lastAlignedPos := by
  rcases cleanupState_lastAligned st r with h | ⟨h1, h2⟩
  · omega
  · omega

theorem cleanupState_reads (st : RState) (r : BamRec) :
    (cleanupState st r).lastReads = st.lastReads ∨ (cleanupState st r).lastReads = [] := by
  rw [cleanupState]
  split
  · exact Or.inr rfl
  · exact Or.inl rfl

theorem cleanupState_noclear (st : RState) (r : BamRec) (h : r.pos ≤ st.lastAlignedPos) :
    cleanupState st r = st := by
  rw [cleanupState, if_neg (by omega)]

theorem resolveStep_drop (minQual : ℕ) (st : RState) (r : BamRec)
    (h : ¬ passRec minQual r) :
    resolveStep minQual st r = (st, none) := by
  rw [resolveStep]
  by_cases hk : keepRec r = true
  · have hq : r.qual < minQual := by
      by_contra hq
      exact h ⟨hk, by omega⟩
    rw [hk]
    simp only [Bool.not_true, Bool.false_eq_true, if_false]
    rw [if_pos hq]
  · have hk2 : keepRec r = false := by
      cases hkk : keepRec r
      · rfl
      · exact absurd hkk hk
    rw [hk2]
    simp only [Bool.not_false, if_true]

theorem resolveStep_pass_first (minQual : ℕ) (st : RState) (r : BamRec)
    (hp : passRec minQual r)
    (hf : r.pos < r.mpos ∨ (r.pos = r.mpos ∧ r.qname ∉ (cleanupState st r).lastReads)) :
    resolveStep minQual st r
      = (⟨(cleanupState st r).lastAlignedPos, r.qname :: (cleanupState st r).lastReads,
          setQual (cleanupState st r).qualities (hashPair r) r.qual⟩, none) := by
  obtain ⟨hk, hq⟩ := hp
  rw [resolveStep, hk]
  simp only [Bool.not_true, Bool.false_eq_true, if_false]
  rw [if_neg (by omega : ¬ r.qual < minQual)]
  rw [if_pos hf]

theorem resolveStep_pass_second_none (minQual : ℕ) (st : RState) (r : BamRec)
    (hp : passRec minQual r)
    (hf : ¬ (r.pos < r.mpos ∨ (r.pos = r.mpos ∧ r.qname ∉ (cleanupState st r).lastReads)))
    (hl : (cleanupState st r).qualities (hashPairMate r) = none) :
    resolveStep minQual st r = (cleanupState st r, none) := by
  obtain ⟨hk, hq⟩ := hp
  rw [resolveStep, hk]
  simp only [Bool.not_true, Bool.false_eq_true, if_false]
  rw [if_neg (by omega : ¬ r.qual < minQual)]
  rw [if_neg hf, hl]

theorem resolveStep_pass_second_some (minQual : ℕ) (st : RState) (r : BamRec) (q : ℕ)
    (hp : passRec minQual r)
    (hf : ¬ (r.pos < r.mpos ∨ (r.pos = r.mpos ∧ r.qname ∉ (cleanupState st r).lastReads)))
    (hl : (cleanupState st r).qualities (hashPairMate r) = some q) :
    resolveStep minQual st r
      = (⟨(cleanupState st r).lastAlignedPos, (cleanupState st r).lastReads,
          setQual (cleanupState st r).qualities (hashPairMate r) 0⟩,
         if min q r.qual < minQual then none else some (min q r.qual, r)) := by
  obtain ⟨hk, hq⟩ := hp
  rw [resolveStep, hk]
  simp only [Bool.not_true, Bool.false_eq_true, if_false]
  rw [if_neg (by omega : ¬ r.qual < minQual)]
  rw [if_neg hf, hl]
  dsimp only
  split
  · rfl
  · rfl

theorem resolveStep_last_le (minQual : ℕ) (st : RState) (r : BamRec) :
    st.lastAlignedPos ≤ (resolveStep minQual st r).1.lastAlignedPos := by
  by_cases hp : passRec minQual r
  · by_cases hf : r.pos < r.mpos ∨ (r.pos = r.mpos ∧ r.qname ∉ (cleanupState st r).lastReads)
    · rw [resolveStep_pass_first minQual st r hp hf]
      exact cleanupState_le st r
    · cases hl : (cleanupState st r).qualities (hashPairMate r) with
      | none =>
          rw [resolveStep_pass_second_none minQual st r hp hf hl]
          exact cleanupState_le st r
      | some q =>
          rw [resolveStep_pass_second_some minQual st r q hp hf hl]
          exact cleanupState_le st r
  · rw [resolveStep_drop minQual st r hp]

theorem resolveStep_last_cases (minQual : ℕ) (st : RState) (r : BamRec) :
    (resolveStep minQual st r).1.lastAlignedPos = st.lastAlignedPos
    ∨ (st.lastAlignedPos < r.pos ∧ (resolveStep minQual st r).1.lastAlignedPos = r.pos) := by
  by_cases hp : passRec minQual r
  · by_cases hf : r.pos < r.mpos ∨ (r.pos = r.mpos ∧ r.qname ∉ (cleanupState st r).lastReads)
    · rw [resolveStep_pass_first minQual st r hp hf]
      exact cleanupState_lastAligned st r
    · cases hl : (cleanupState st r).qualities (hashPairMate r) with
      | none =>
          rw [resolveStep_pass_second_none minQual st r hp hf hl]
          exact cleanupState_lastAligned st r
      | some q =>
          rw [resolveStep_pass_second_some minQual st r q hp hf hl]
          exact cleanupState_lastAligned st r
  · rw [resolveStep_drop minQual st r hp]
    exact Or.inl rfl

theorem resolveStep_qual_frame (minQual : ℕ) (st : RState) (r : BamRec) (k : FragKey)
    (hk : k.name ≠ r.qname) :
    (resolveStep minQual st r).1.qualities k = st.qualities k := by
  by_cases hp : passRec minQual r
  · by_cases hf : r.pos < r.mpos ∨ (r.pos = r.mpos ∧ r.qname ∉ (cleanupState st r).lastReads)
    · rw [resolveStep_pass_first minQual st r hp hf]
      show setQual (cleanupState st r).qualities (hashPair r) r.qual k = st.qualities k
      rw [setQual, if_neg (by intro hcon; rw [hcon] at hk; exact hk rfl),
        cleanupState_qualities]
    · cases hl : (cleanupState st r).qualities (hashPairMate r) with
      | none =>
          rw [resolveStep_pass_second_none minQual st r hp hf hl]
          rw [cleanupState_qualities]
      | some q =>
          rw [resolveStep_pass_second_some minQual st r q hp hf hl]
          show setQual (cleanupState st r).qualities (hashPairMate r) 0 k = st.qualities k
          rw [setQual, if_neg (by intro hcon; rw [hcon] at hk; exact hk rfl),
            cleanupState_qualities]
  · rw [resolveStep_drop minQual st r hp]

theorem resolveStep_emit (minQual : ℕ) (st : RState) (r : BamRec) (e : ℕ × BamRec)
    (h : (resolveStep minQual st r).2 = some e) :
    ∃ q, (cleanupState st r).qualities (hashPairMate r) = some q
      ∧ ¬ (min q r.qual < minQual) ∧ e = (min q r.qual, r)
      ∧ ¬ (r.pos < r.mpos ∨ (r.pos = r.mpos ∧ r.qname ∉ (cleanupState st r).lastReads))
      ∧ passRec minQual r := by
  by_cases hp : passRec minQual r
  · by_cases hf : r.pos < r.mpos ∨ (r.pos = r.mpos ∧ r.qname ∉ (cleanupState st r).lastReads)
    · rw [resolveStep_pass_first minQual st r hp hf] at h
      exact absurd h (by simp)
    · cases hl : (cleanupState st r).qualities (hashPairMate r) with
      | none =>
          rw [resolveStep_pass_second_none minQual st r hp hf hl] at h
          exact absurd h (by simp)
      | some q =>
          rw [resolveStep_pass_second_some minQual st r q hp hf hl] at h
          by_cases hpq : min q r.qual < minQual
          · rw [if_pos hpq] at h
            exact absurd h (by simp)
          · rw [if_neg hpq] at h
            injection h with h
            exact ⟨q, rfl, hpq, h.symm, hf, hp⟩
  · rw [resolveStep_drop minQual st r hp] at h
    exact absurd h (by simp)

theorem resolveStep_block (minQual : ℕ) (st : RState) (r : BamRec)
    (h : r.pos ≤ st.lastAlignedPos) :
    (resolveStep minQual st r).1.lastAlignedPos = st.lastAlignedPos
    ∧ ∀ w ∈ st.lastReads, w ∈ (resolveStep minQual st r).1.lastReads := by
  have hcl := cleanupState_noclear st r h
  by_cases hp : passRec minQual r
  · by_cases hf : r.pos < r.mpos ∨ (r.pos = r.mpos ∧ r.qname ∉ (cleanupState st r).lastReads)
    · rw [resolveStep_pass_first minQual st r hp hf, hcl]
      exact ⟨rfl, fun w hw => List.mem_cons_of_mem _ hw⟩
    · cases hl : (cleanupState st r).qualities (hashPairMate r) with
      | none =>
          rw [resolveStep_pass_second_none minQual st r hp hf hl, hcl]
          exact ⟨rfl, fun w hw => hw⟩
      | some q =>
          rw [resolveStep_pass_second_some minQual st r q hp hf hl, hcl]
          exact ⟨rfl, fun w hw => hw⟩
  · rw [resolveStep_drop minQual st r hp]
    exact ⟨rfl, fun w hw => hw⟩

theorem resolveStep_notmem (minQual : ℕ) (st : RState) (r : BamRec) (w : ℕ)
    (hw : w ∉ st.lastReads) (hn : w ≠ r.qname) :
    w ∉ (resolveStep minQual st r).1.lastReads := by
  have hcr : w ∉ (cleanupState st r).lastReads := by
    rcases cleanupState_reads st r with h | h
    · rw [h]; exact hw
    · rw [h]; simp
  by_cases hp : passRec minQual r
  · by_cases hf : r.pos < r.mpos ∨ (r.pos = r.mpos ∧ r.qname ∉ (cleanupState st r).lastReads)
    · rw [resolveStep_pass_first minQual st r hp hf]
      intro hmem
      rcases List.mem_cons.mp hmem with h | h
      · exact hn h
      · exact hcr h
    · cases hl : (cleanupState st r).qualities (hashPairMate r) with
      | none =>
          rw [resolveStep_pass_second_none minQual st r hp hf hl]
          exact hcr
      | some q =>
          rw [resolveStep_pass_second_some minQual st r q hp hf hl]
          exact hcr
  · rw [resolveStep_drop minQual st r hp]
    exact hw

theorem runResolver_nil (minQual : ℕ) (st : RState) :
    runResolver minQual st [] = (st, []) := rfl

theorem runResolver_cons (minQual : ℕ) (st : RState) (r : BamRec) (rs : List BamRec) :
    runResolver minQual st (r :: rs)
      = ((runResolver minQual (resolveStep minQual st r).1 rs).1,
         (resolveStep minQual st r).2.toList
           ++ (runResolver minQual (resolveStep minQual st r).1 rs).2) := rfl

theorem runResolver_append (minQual : ℕ) :
    ∀ (l1 l2 : List BamRec) (st : RState),
      runResolver minQual st (l1 ++ l2)
        = ((runResolver minQual (runResolver minQual st l1).1 l2).1,
           (runResolver minQual st l1).2
             ++ (runResolver minQual (runResolver minQual st l1).1 l2).2) := by
  intro l1
  induction l1 with
  | nil =>
      intro l2 st
      rw [List.nil_append, runResolver_nil]
      simp
  | cons r rs ih =>
      intro l2 st
      rw [List.cons_append, runResolver_cons, ih l2 (resolveStep minQual st r).1,
        runResolver_cons]
      rw [List.append_assoc]

theorem runResolver_mem (minQual : ℕ) :
    ∀ (l : List BamRec) (st : RState) (e : ℕ × BamRec),
      e ∈ (runResolver minQual st l).2 → e.2 ∈ l := by
  intro l
  induction l with
  | nil =>
      intro st e h
      rw [runResolver_nil] at h
      simp at h
  | cons r rs ih =>
      intro st e h
      rw [runResolver_cons] at h
      rcases List.mem_append.mp h with h | h
      · cases hstep : (resolveStep minQual st r).2 with
        | none => rw [hstep] at h; simp at h
        | some ee =>
            rw [hstep] at h
            simp only [Option.toList_some, List.mem_singleton] at h
            subst h
            obtain ⟨q, _, _, he, _, _⟩ := resolveStep_emit minQual st r e hstep
            rw [he]
            exact List.mem_cons_self _ _
      · exact List.mem_cons_of_mem _ (ih _ e h)

theorem runResolver_last_le (minQual : ℕ) :
    ∀ (l : List BamRec) (st : RState),
      st.lastAlignedPos ≤ (runResolver minQual st l).1.lastAlignedPos := by
  intro l
  induction l with
  | nil => intro st; rw [runResolver_nil]
  | cons r rs ih =>
      intro st
      rw [runResolver_cons]
      exact le_trans (resolveStep_last_le minQual st r) (ih (resolveStep minQual st r).1)

theorem runResolver_last_bound (minQual : ℕ) (m : ℤ) :
    ∀ (l : List BamRec) (st : RState), (∀ r ∈ l, r.pos ≤ m) →
      st.lastAlignedPos ≤ m → (runResolver minQual st l).1.lastAlignedPos ≤ m := by
  intro l
  induction l with
  | nil => intro st _ h; rw [runResolver_nil]; exact h
  | cons r rs ih =>
      intro st hall h
      rw [runResolver_cons]
      refine ih (resolveStep minQual st r).1 (fun u hu => hall u (by simp [hu])) ?_
      rcases resolveStep_last_cases minQual st r with hc | ⟨_, hc⟩
      · omega
      · have := hall r (by simp)
        omega

theorem runResolver_block (minQual : ℕ) :
    ∀ (l : List BamRec) (st : RState), (∀ r ∈ l, r.pos ≤ st.lastAlignedPos) →
      (runResolver minQual st l).1.lastAlignedPos = st.lastAlignedPos
      ∧ ∀ w ∈ st.lastReads, w ∈ (runResolver minQual st l).1.lastReads := by
  intro l
  induction l with
  | nil =>
      intro st _
      rw [runResolver_nil]
      exact ⟨rfl, fun w hw => hw⟩
  | cons r rs ih =>
      intro st hall
      rw [runResolver_cons]
      obtain ⟨h1, h2⟩ := resolveStep_block minQual st r (hall r (by simp))
      obtain ⟨h3, h4⟩ := ih (resolveStep minQual st r).1
        (fun u hu => by rw [h1]; exact hall u (by simp [hu]))
      exact ⟨by rw [h3, h1], fun w hw => h4 w (h2 w hw)⟩

theorem runResolver_qual_frame (minQual w : ℕ) :
    ∀ (l : List BamRec) (st : RState) (k : FragKey), (∀ r ∈ l, r.qname ≠ w) →
      k.name = w → (runResolver minQual st l).1.qualities k = st.qualities k := by
  intro l
  induction l with
  | nil => intro st k _ _; rw [runResolver_nil]
  | cons r rs ih =>
      intro st k hall hk
      rw [runResolver_cons]
      rw [ih (resolveStep minQual st r).1 k (fun u hu => hall u (by simp [hu])) hk]
      exact resolveStep_qual_frame minQual st r k
        (by rw [hk]; exact fun hcon => hall r (by simp) hcon.symm)

theorem runResolver_notmem (minQual w : ℕ) :
    ∀ (l : List BamRec) (st : RState), w ∉ st.lastReads → (∀ r ∈ l, r.qname ≠ w) →
      w ∉ (runResolver minQual st l).1.lastReads := by
  intro l
  induction l with
  | nil => intro st h _; rw [runResolver_nil]; exact h
  | cons r rs ih =>
      intro st h hall
      rw [runResolver_cons]
      refine ih (resolveStep minQual st r).1 ?_ (fun u hu => hall u (by simp [hu]))
      exact resolveStep_notmem minQual st r w h
        (fun hcon => hall r (by simp) hcon.symm)

theorem nameEmissions_append (w : ℕ) (a b : List (ℕ × BamRec)) :
    nameEmissions w (a ++ b) = nameEmissions w a ++ nameEmissions w b := by
  rw [nameEmissions, nameEmissions, nameEmissions, List.filter_append]

theorem runResolver_no_name (minQual w : ℕ) (l : List BamRec) (st : RState)
    (hall : ∀ r ∈ l, r.qname ≠ w) :
    nameEmissions w (runResolver minQual st l).2 = [] := by
  rw [nameEmissions, List.filter_eq_nil]
  intro e he
  have := runResolver_mem minQual l st e he
  simp only [decide_eq_true_eq]
  exact hall e.2 this

theorem cleanupState_last_eq (st : RState) (r : BamRec) (h : st.lastAlignedPos ≤ r.pos) :
    (cleanupState st r).lastAlignedPos = r.pos := by
  rw [cleanupState]
  by_cases hc : st.lastAlignedPos < r.pos
  · rw [if_pos hc]
  · rw [if_neg hc]
    omega

/-- Claim C1: for a position-sorted stream containing the two mates of one
pair (query name unique to the pair, mate positions consistent, non-negative
positions), the resolver emits a fragment for the pair if and only if both
mates individually pass the flag and minimum-quality filters and the
combined pair quality, the minimum of the two mapping qualities, is at least
the threshold; the emission is unique and carries that pair quality together
with the second mate. -/
theorem C1_pair_resolution :
    ∀ (minQual : ℕ) (A B C : List BamRec) (r1 r2 : BamRec),
      (A ++ r1 :: (B ++ r2 :: C)).Pairwise (fun a b => a.pos ≤ b.pos) →
      (∀ r ∈ A ++ r1 :: (B ++ r2 :: C), 0 ≤ r.pos) →
      r2.qname = r1.qname →
      (∀ r, r ∈ A ∨ r ∈ B ∨ r ∈ C → r.qname ≠ r1.qname) →
      r1.mpos = r2.pos → r2.mpos = r1.pos →
      nameEmissions r1.qname (resolveAll minQual (A ++ r1 :: (B ++ r2 :: C)))
        = if passRec minQual r1 ∧ passRec minQual r2
              ∧ minQual ≤ min r1.qual r2.qual
          then [(min r1.qual r2.qual, r2)] else [] := by
  intro minQual A B C r1 r2 hsorted hnonneg hname huniq hm1 hm2
  rw [List.pairwise_append] at hsorted
  obtain ⟨hpA, hpRest, hAR⟩ := hsorted
  rw [List.pairwise_cons] at hpRest
  obtain ⟨hr1le, hpRest2⟩ := hpRest
  rw [List.pairwise_append] at hpRest2
  obtain ⟨hpB, hpR2C, hBR⟩ := hpRest2
  rw [List.pairwise_cons] at hpR2C
  obtain ⟨hr2le, _⟩ := hpR2C
  have hr12 : r1.pos ≤ r2.pos := hr1le r2 (by simp)
  have hBpos : ∀ r ∈ B, r1.pos ≤ r.pos ∧ r.pos ≤ r2.pos :=
    fun r hr => ⟨hr1le r (by simp [hr]), hBR r hr r2 (by simp)⟩
  have hApos : ∀ r ∈ A, r.pos ≤ r1.pos := fun r hr => hAR r hr r1 (by simp)
  have h1nn : (0 : ℤ) ≤ r1.pos := hnonneg r1 (by simp)
  have hAname : ∀ r ∈ A, r.qname ≠ r1.qname := fun r hr => huniq r (Or.inl hr)
  have hBname : ∀ r ∈ B, r.qname ≠ r1.qname := fun r hr => huniq r (Or.inr (Or.inl hr))
  have hCname : ∀ r ∈ C, r.qname ≠ r1.qname := fun r hr => huniq r (Or.inr (Or.inr hr))
  -- decompose the run of the full stream
  rw [resolveAll, runResolver_append]
  dsimp only
  rw [nameEmissions_append, runResolver_no_name minQual r1.qname A initRState hAname,
    List.nil_append, runResolver_cons]
  dsimp only
  rw [nameEmissions_append, runResolver_append]
  dsimp only
  rw [nameEmissions_append,
    runResolver_no_name minQual r1.qname B _ hBname, List.nil_append,
    runResolver_cons]
  dsimp only
  rw [nameEmissions_append,
    runResolver_no_name minQual r1.qname C _ hCname, List.append_nil]
  -- facts about the state after A
  have hA_last : (runResolver minQual initRState A).1.lastAlignedPos ≤ r1.pos :=
    runResolver_last_bound minQual r1.pos A initRState hApos
      (by show (initRState.lastAlignedPos : ℤ) ≤ r1.pos; rw [initRState]; exact h1nn)
  have hA_qual : ∀ k : FragKey, k.name = r1.qname →
      (runResolver minQual initRState A).1.qualities k = none := by
    intro k hk
    rw [runResolver_qual_frame minQual r1.qname A initRState k hAname hk]
    rfl
  have hA_reads : r1.qname ∉ (runResolver minQual initRState A).1.lastReads :=
    runResolver_notmem minQual r1.qname A initRState (by rw [initRState]; simp) hAname
  by_cases hp1 : passRec minQual r1
  · -- r1 passes: it is classified as the first mate and stores its quality
    have hf1 : r1.pos < r1.mpos ∨ (r1.pos = r1.mpos
        ∧ r1.qname ∉ (cleanupState (runResolver minQual initRState A).1 r1).lastReads) := by
      rcases lt_or_eq_of_le hr12 with h | h
      · exact Or.inl (by omega)
      · refine Or.inr ⟨by omega, ?_⟩
        rcases cleanupState_reads (runResolver minQual initRState A).1 r1 with hr | hr
        · rw [hr]
          exact hA_reads
        · rw [hr]
          simp
    rw [resolveStep_pass_first minQual _ r1 hp1 hf1]
    dsimp only
    set st1c := cleanupState (runResolver minQual initRState A).1 r1 with hst1c
    have hlast1 : st1c.lastAlignedPos = r1.pos :=
      cleanupState_last_eq (runResolver minQual initRState A).1 r1 hA_last
    have hfq : hashPair r1 = hashPairMate r2 := by
      rw [hashPair, hashPairMate, hname, hm1, hm2]
    set stB := (runResolver minQual
      (⟨st1c.lastAlignedPos, r1.qname :: st1c.lastReads,
        setQual st1c.qualities (hashPair r1) r1.qual⟩ : RState) B).1 with hstB
    have hlook : (cleanupState stB r2).qualities (hashPairMate r2) = some r1.qual := by
      rw [cleanupState_qualities, hstB,
        runResolver_qual_frame minQual r1.qname B _ (hashPairMate r2) hBname
          (by rw [hashPairMate]; exact hname)]
      show setQual st1c.qualities (hashPair r1) r1.qual (hashPairMate r2) = some r1.qual
      rw [setQual]
      rw [if_pos hfq.symm]
    have hf2 : ¬ (r2.pos < r2.mpos ∨ (r2.pos = r2.mpos
        ∧ r2.qname ∉ (cleanupState stB r2).lastReads)) := by
      intro hcon
      rcases hcon with h | ⟨heq, hnot⟩
      · omega
      · have htie : r1.pos = r2.pos := by omega
        have hBlock := runResolver_block minQual B
          (⟨st1c.lastAlignedPos, r1.qname :: st1c.lastReads,
            setQual st1c.qualities (hashPair r1) r1.qual⟩ : RState)
          (fun r hr => by
            show r.pos ≤ st1c.lastAlignedPos
            rw [hlast1]
            have := (hBpos r hr).2
            omega)
        have hwmem : r1.qname ∈ stB.lastReads := by
          rw [hstB]
          exact hBlock.2 r1.qname (by simp)
        have hlastB : stB.lastAlignedPos = r1.pos := by
          rw [hstB, hBlock.1, hlast1]
        have hnc : cleanupState stB r2 = stB :=
          cleanupState_noclear stB r2 (by omega)
        rw [hnc] at hnot
        exact hnot (by rw [hname]; exact hwmem)
    by_cases hp2 : passRec minQual r2
    · rw [resolveStep_pass_second_some minQual stB r2 r1.qual hp2 hf2 hlook]
      dsimp only
      have hmin : ¬ (min r1.qual r2.qual < minQual) := by
        obtain ⟨_, hq1⟩ := hp1
        obtain ⟨_, hq2⟩ := hp2
        omega
      rw [if_neg hmin, if_pos ⟨hp1, hp2, by omega⟩]
      simp [nameEmissions, hname]
    · rw [resolveStep_drop minQual stB r2 hp2]
      dsimp only
      rw [if_neg (by intro hcon; exact hp2 hcon.2.1)]
      rfl
  · -- r1 is filtered out: no pending entry is ever created for the pair
    rw [resolveStep_drop minQual _ r1 hp1]
    dsimp only
    have hp2none : (resolveStep minQual
        (runResolver minQual (runResolver minQual initRState A).1 B).1 r2).2 = none := by
      cases hc : (resolveStep minQual
          (runResolver minQual (runResolver minQual initRState A).1 B).1 r2).2 with
      | none => rfl
      | some e =>
          obtain ⟨q, hlook, _, _, _, _⟩ := resolveStep_emit minQual _ r2 e hc
          rw [cleanupState_qualities] at hlook
          rw [runResolver_qual_frame minQual r1.qname B _ (hashPairMate r2) hBname
              (by rw [hashPairMate]; exact hname),
            hA_qual (hashPairMate r2) (by rw [hashPairMate]; exact hname)] at hlook
          exact absurd hlook (by simp)
    rw [hp2none]
    rw [if_neg (by intro hcon; exact hp1 hcon.1)]
    rfl

/-- Witness for claim C1 at the concrete scenario of the spec: two mates at
positions 100/100 with the same query name and qualities 30 and 25.  With
threshold 20 exactly one fragment with pair quality 25 is emitted; with
threshold 26 nothing is emitted. -/
theorem C1_pair_resolution_witness :
    nameEmissions 7 (resolveAll 20
        [⟨0, 0, 100, 100, 30, 7, true, false, false, false, false, false, false, []⟩,
         ⟨0, 0, 100, 100, 25, 7, true, false, false, false, false, false, false, []⟩])
      = [(25, ⟨0, 0, 100, 100, 25, 7, true, false, false, false, false, false, false, []⟩)]
    ∧ nameEmissions 7 (resolveAll 26
        [⟨0, 0, 100, 100, 30, 7, true, false, false, false, false, false, false, []⟩,
         ⟨0, 0, 100, 100, 25, 7, true, false, false, false, false, false, false, []⟩])
      = [] :=
  ⟨(C1_pair_resolution 20 [] [] []
      ⟨0, 0, 100, 100, 30, 7, true, false, false, false, false, false, false, []⟩
      ⟨0, 0, 100, 100, 25, 7, true, false, false, false, false, false, false, []⟩
      (by decide) (by decide) rfl
      (by rintro r (h | h | h) <;> simp at h) rfl rfl).trans (by decide),
   (C1_pair_resolution 26 [] [] []
      ⟨0, 0, 100, 100, 30, 7, true, false, false, false, false, false, false, []⟩
      ⟨0, 0, 100, 100, 25, 7, true, false, false, false, false, false, false, []⟩
      (by decide) (by decide) rfl
      (by rintro r (h | h | h) <;> simp at h) rfl rfl).trans (by decide)⟩

theorem keyEmissions_append (k : FragKey) (a b : List (ℕ × BamRec)) :
    keyEmissions k (a ++ b) = keyEmissions k a ++ keyEmissions k b := by
  rw [keyEmissions, keyEmissions, keyEmissions, List.filter_append]

theorem cleanup_key_inv (st : RState) (r : BamRec) (k : FragKey)
    (he : k.c2 ≤ st.lastAlignedPos)
    (hc : k.c1 = k.c2 → st.lastAlignedPos = k.c1 → k.name ∈ st.lastReads) :
    k.c2 ≤ (cleanupState st r).lastAlignedPos
    ∧ (k.c1 = k.c2 → (cleanupState st r).lastAlignedPos = k.c1
        → k.name ∈ (cleanupState st r).lastReads) := by
  rw [cleanupState]
  by_cases hcl : st.lastAlignedPos < r.pos
  · rw [if_pos hcl]
    refine ⟨by show k.c2 ≤ r.pos; omega, ?_⟩
    intro h12 hlast
    show k.name ∈ ([] : List ℕ)
    exfalso
    have : r.pos = k.c1 := hlast
    omega
  · rw [if_neg hcl]
    exact ⟨he, hc⟩

theorem resolveRun_no_more (minQual : ℕ) (k : FragKey) (hq : 1 ≤ minQual)
    (hk12 : k.c1 ≤ k.c2) :
    ∀ (l : List BamRec) (st : RState),
      l.Pairwise (fun a b => a.pos ≤ b.pos) →
      (∀ r ∈ l, st.lastAlignedPos ≤ r.pos) →
      st.qualities k = some 0 →
      k.c2 ≤ st.lastAlignedPos →
      (k.c1 = k.c2 → st.lastAlignedPos = k.c1 → k.name ∈ st.lastReads) →
      keyEmissions k (runResolver minQual st l).2 = [] := by
  intro l
  induction l with
  | nil =>
      intro st _ _ _ _ _
      rw [runResolver_nil]
      rfl
  | cons r rs ih =>
      intro st hpw hd hzero he hc
      have hrle := (List.pairwise_cons.mp hpw).1
      have hpw2 := (List.pairwise_cons.mp hpw).2
      have hdr : st.lastAlignedPos ≤ r.pos := hd r (by simp)
      rw [runResolver_cons]
      dsimp only
      rw [keyEmissions_append]
      obtain ⟨he1, hc1⟩ := cleanup_key_inv st r k he hc
      have hcq : (cleanupState st r).qualities k = some 0 := by
        rw [cleanupState_qualities]
        exact hzero
      have hd1 : ∀ u ∈ rs, (cleanupState st r).lastAlignedPos ≤ u.pos := by
        intro u hu
        rcases cleanupState_lastAligned st r with h | ⟨_, h⟩
        · rw [h]
          exact hd u (by simp [hu])
        · rw [h]
          exact hrle u hu
      by_cases hp : passRec minQual r
      · by_cases hf : r.pos < r.mpos ∨ (r.pos = r.mpos
            ∧ r.qname ∉ (cleanupState st r).lastReads)
        · -- first-read branch: the key cannot be re-inserted
          rw [resolveStep_pass_first minQual st r hp hf]
          dsimp only
          have hkne : k ≠ hashPair r := by
            intro hcon
            have hname : r.qname = k.name := by rw [hcon]; rfl
            have hpos : r.pos = k.c1 := by rw [hcon]; rfl
            have hmpos : r.mpos = k.c2 := by rw [hcon]; rfl
            have hall : st.lastAlignedPos = k.c1 ∧ k.c1 = k.c2 := by omega
            have hnc : cleanupState st r = st := cleanupState_noclear st r (by omega)
            have hmem := hc hall.2 hall.1
            rcases hf with h | ⟨_, hnot⟩
            · omega
            · rw [hnc] at hnot
              exact hnot (by rw [hname]; exact hmem)
          have hq0 : setQual (cleanupState st r).qualities (hashPair r) r.qual k
              = some 0 := by
            rw [setQual, if_neg hkne, cleanupState_qualities]
            exact hzero
          rw [ih (⟨(cleanupState st r).lastAlignedPos,
              r.qname :: (cleanupState st r).lastReads,
              setQual (cleanupState st r).qualities (hashPair r) r.qual⟩ : RState)
            hpw2 hd1 hq0 he1
            (fun h12 hlast => List.mem_cons_of_mem _ (hc1 h12 hlast))]
          rfl
        · cases hl : (cleanupState st r).qualities (hashPairMate r) with
          | none =>
              rw [resolveStep_pass_second_none minQual st r hp hf hl]
              dsimp only
              rw [ih (cleanupState st r) hpw2 hd1 hcq he1 hc1]
              rfl
          | some q =>
              rw [resolveStep_pass_second_some minQual st r q hp hf hl]
              dsimp only
              have hq0 : setQual (cleanupState st r).qualities (hashPairMate r) 0 k
                  = some 0 := by
                rw [setQual]
                by_cases hkm : k = hashPairMate r
                · rw [if_pos hkm]
                · rw [if_neg hkm, cleanupState_qualities]
                  exact hzero
              rw [ih (⟨(cleanupState st r).lastAlignedPos,
                  (cleanupState st r).lastReads,
                  setQual (cleanupState st r).qualities (hashPairMate r) 0⟩ : RState)
                hpw2 hd1 hq0 he1 hc1]
              by_cases hpq : min q r.qual < minQual
              · rw [if_pos hpq]
                rfl
              · rw [if_neg hpq]
                have hkm : ¬ (hashPairMate r = k) := by
                  intro hcon
                  rw [cleanupState_qualities, hcon, hzero] at hl
                  injection hl with hl
                  omega
                show keyEmissions k [(min q r.qual, r)] ++ [] = []
                simp [keyEmissions, hkm]
      · rw [resolveStep_drop minQual st r hp]
        dsimp only
        rw [ih st hpw2 (fun u hu => hd u (by simp [hu])) hzero he hc]
        rfl

theorem hashPairMate_name (r : BamRec) : (hashPairMate r).name = r.qname := rfl

theorem hashPairMate_c1 (r : BamRec) : (hashPairMate r).c1 = r.mpos := rfl

theorem hashPairMate_c2 (r : BamRec) : (hashPairMate r).c2 = r.pos := rfl

theorem resolveRun_at_most_one (minQual : ℕ) (k : FragKey) (hq : 1 ≤ minQual) :
    ∀ (l : List BamRec) (st : RState),
      l.Pairwise (fun a b => a.pos ≤ b.pos) →
      (∀ r ∈ l, st.lastAlignedPos ≤ r.pos) →
      (keyEmissions k (runResolver minQual st l).2).length ≤ 1 := by
  intro l
  induction l generalizing k with
  | nil =>
      intro st _ _
      rw [runResolver_nil]
      simp [keyEmissions]
  | cons r rs ih =>
      intro st hpw hd
      have hrle := (List.pairwise_cons.mp hpw).1
      have hpw2 := (List.pairwise_cons.mp hpw).2
      have hdr : st.lastAlignedPos ≤ r.pos := hd r (by simp)
      rw [runResolver_cons]
      dsimp only
      rw [keyEmissions_append, List.length_append]
      have hd' : ∀ u ∈ rs, (resolveStep minQual st r).1.lastAlignedPos ≤ u.pos := by
        intro u hu
        rcases resolveStep_last_cases minQual st r with h | ⟨_, h⟩
        · rw [h]
          exact hd u (by simp [hu])
        · rw [h]
          exact hrle u hu
      cases hstep : (resolveStep minQual st r).2 with
      | none =>
          have := ih k (resolveStep minQual st r).1 hpw2 hd'
          simpa [keyEmissions] using this
      | some e =>
          obtain ⟨q, hl, hpq, he2, hf, hp⟩ := resolveStep_emit minQual st r e hstep
          by_cases hke : hashPairMate r = k
          · subst hke
            have hstate : (resolveStep minQual st r).1
                = (⟨(cleanupState st r).lastAlignedPos, (cleanupState st r).lastReads,
                    setQual (cleanupState st r).qualities (hashPairMate r) 0⟩ : RState) := by
              rw [resolveStep_pass_second_some minQual st r q hp hf hl]
            have hk12 : (hashPairMate r).c1 ≤ (hashPairMate r).c2 := by
              rw [hashPairMate_c1, hashPairMate_c2]
              rcases not_or.mp hf with ⟨h1, _⟩
              omega
            have hlastc : (cleanupState st r).lastAlignedPos = r.pos :=
              cleanupState_last_eq st r hdr
            have hrest : keyEmissions (hashPairMate r)
                (runResolver minQual (resolveStep minQual st r).1 rs).2 = [] := by
              rw [hstate]
              refine resolveRun_no_more minQual (hashPairMate r) hq hk12 rs _ hpw2
                ?_ ?_ ?_ ?_
              · intro u hu
                show (cleanupState st r).lastAlignedPos ≤ u.pos
                rw [hlastc]
                exact hrle u hu
              · show setQual (cleanupState st r).qualities (hashPairMate r) 0
                    (hashPairMate r) = some 0
                rw [setQual, if_pos rfl]
              · show (hashPairMate r).c2 ≤ (cleanupState st r).lastAlignedPos
                rw [hashPairMate_c2, hlastc]
              · intro h12 hlast
                show (hashPairMate r).name ∈ (cleanupState st r).lastReads
                rw [hashPairMate_name]
                rw [hashPairMate_c1, hashPairMate_c2] at h12
                rcases not_or.mp hf with ⟨_, h2⟩
                rcases not_and_or.mp h2 with h3 | h3
                · exact absurd h12.symm h3
                · exact not_not.mp h3
            rw [hrest]
            have hfirst : (keyEmissions (hashPairMate r) (some e).toList).length ≤ 1 := by
              rw [Option.toList_some]
              exact le_trans (List.length_filter_le _ _) (by simp)
            simpa using hfirst
          · have hfirst : keyEmissions k (some e).toList = [] := by
              rw [Option.toList_some, he2]
              simp [keyEmissions, hke]
            rw [hfirst]
            have := ih k (resolveStep minQual st r).1 hpw2 hd'
            simpa using this

/-- Counterexample to claim C5 as stated: with threshold 0 a further record
matching an already-resolved FragmentKey is not ignored.  In the sorted
stream below the pair (positions 100/200, name 1) is resolved by the second
record, its table entry is set to the zero sentinel, and the third record —
matching the same key — is emitted again, because the sentinel check
pairQuality < minQual never fires at minQual = 0: two emissions for one
key. -/
theorem C5_counterexample :
    (keyEmissions ⟨1, 100, 200⟩ (resolveAll 0
        [⟨0, 0, 100, 200, 30, 1, true, false, false, false, false, false, false, []⟩,
         ⟨0, 0, 200, 100, 25, 1, true, false, false, false, false, false, false, []⟩,
         ⟨0, 0, 200, 100, 7, 1, true, false, false, false, false, false, false, []⟩])).length = 2
    ∧ ([⟨0, 0, 100, 200, 30, 1, true, false, false, false, false, false, false, []⟩,
        ⟨0, 0, 200, 100, 25, 1, true, false, false, false, false, false, false, []⟩,
        (⟨0, 0, 200, 100, 7, 1, true, false, false, false, false, false, false, []⟩ : BamRec)]).Pairwise
        (fun a b => a.pos ≤ b.pos) := by
  constructor
  · decide
  · decide

/-- Claim C5 as amended: for every position-sorted stream with non-negative
positions and every minimum-quality threshold of at least 1, the resolver
emits at most one fragment per FragmentKey — once a pair is resolved its
pending-quality entry is overwritten with the zero sentinel and any further
record matching the same key is ignored, because its pair quality becomes 0,
which is below the threshold.  At threshold 0 this mechanism fails (see the
counterexample). -/
theorem C5_at_most_one (minQual : ℕ) (recs : List BamRec) (k : FragKey)
    (hq : 1 ≤ minQual)
    (hsorted : recs.Pairwise (fun a b => a.pos ≤ b.pos))
    (hnonneg : ∀ r ∈ recs, 0 ≤ r.pos) :
    (keyEmissions k (resolveAll minQual recs)).length ≤ 1 :=
  resolveRun_at_most_one minQual k hq recs initRState hsorted
    (fun r hr => by
      show initRState.lastAlignedPos ≤ r.pos
      rw [initRState]
      exact hnonneg r hr)

/-- Witness for the amended claim C5 at a concrete input: the same stream as
the counterexample, but with threshold 1, emits at most one fragment for the
key. -/
theorem C5_at_most_one_witness :
    (keyEmissions ⟨1, 100, 200⟩ (resolveAll 1
        [⟨0, 0, 100, 200, 30, 1, true, false, false, false, false, false, false, []⟩,
         ⟨0, 0, 200, 100, 25, 1, true, false, false, false, false, false, false, []⟩,
         ⟨0, 0, 200, 100, 7, 1, true, false, false, false, false, false, false, []⟩])).length ≤ 1 :=
  C5_at_most_one 1
    [⟨0, 0, 100, 200, 30, 1, true, false, false, false, false, false, false, []⟩,
     ⟨0, 0, 200, 100, 25, 1, true, false, false, false, false, false, false, []⟩,
     ⟨0, 0, 200, 100, 7, 1, true, false, false, false, false, false, false, []⟩]
    ⟨1, 100, 200⟩ (by decide) (by decide) (by decide)
